import Mathlib

/-!
Verification development for the greedy point-label placement core
(greedy_labeler.cpp / greedy_labeler.hpp) and the batch threshold tool
(csv_labeler.cpp).

The C++ code computes with `float`; the embedding idealises every
coordinate, size and score as an exact rational (ℚ).  All arithmetic in
the executable definitions below goes through a small layer of
kernel-reducible operations (`qadd`, `qsub`, `qmul`, `qdiv`, `Rat.floor`,
comparison instances), each provably equal to the corresponding Mathlib
field operation, so that concrete runs of the embedded program can be
evaluated by `decide` while abstract proofs can use the ordered-field
theory of ℚ.
-/

namespace Labeler

/-- Shorthand for an exact rational literal `n / d` in kernel-reducible form. -/
def mkq (n d : Int) : Rat := Rat.divInt n d

/-- Kernel-reducible rational addition (equal to `a + b`, see `qadd_eq`). -/
def qadd (a b : Rat) : Rat :=
  Rat.divInt (a.num * (b.den : Int) + b.num * (a.den : Int)) ((a.den : Int) * (b.den : Int))

/-- Kernel-reducible rational subtraction (equal to `a - b`, see `qsub_eq`). -/
def qsub (a b : Rat) : Rat :=
  Rat.divInt (a.num * (b.den : Int) - b.num * (a.den : Int)) ((a.den : Int) * (b.den : Int))

/-- Kernel-reducible rational multiplication (equal to `a * b`, see `qmul_eq`). -/
def qmul (a b : Rat) : Rat :=
  Rat.divInt (a.num * b.num) ((a.den : Int) * (b.den : Int))

/-- Kernel-reducible rational division (equal to `a / b`, see `qdiv_eq`). -/
def qdiv (a b : Rat) : Rat :=
  Rat.divInt (a.num * (b.den : Int)) ((a.den : Int) * b.num)

/-- `std::min` on rationals. -/
def qmin (a b : Rat) : Rat := if a ≤ b then a else b

/-- `std::fabs` on rationals. -/
def qabs (a : Rat) : Rat := if a < 0 then qsub 0 a else a

theorem mkq_eq (n d : Int) : mkq n d = (n : Rat) / (d : Rat) := by
  simp [mkq, Rat.divInt_eq_div]

theorem qadd_eq (a b : Rat) : qadd a b = a + b := by
  have had : ((a.den : Rat)) ≠ 0 := Nat.cast_ne_zero.mpr a.den_nz
  have hbd : ((b.den : Rat)) ≠ 0 := Nat.cast_ne_zero.mpr b.den_nz
  rw [qadd, Rat.divInt_eq_div]
  conv_rhs => rw [← Rat.num_div_den a, ← Rat.num_div_den b]
  push_cast
  field_simp

theorem qsub_eq (a b : Rat) : qsub a b = a - b := by
  have had : ((a.den : Rat)) ≠ 0 := Nat.cast_ne_zero.mpr a.den_nz
  have hbd : ((b.den : Rat)) ≠ 0 := Nat.cast_ne_zero.mpr b.den_nz
  rw [qsub, Rat.divInt_eq_div]
  conv_rhs => rw [← Rat.num_div_den a, ← Rat.num_div_den b]
  push_cast
  field_simp
  ring

theorem qmul_eq (a b : Rat) : qmul a b = a * b := by
  have had : ((a.den : Rat)) ≠ 0 := Nat.cast_ne_zero.mpr a.den_nz
  have hbd : ((b.den : Rat)) ≠ 0 := Nat.cast_ne_zero.mpr b.den_nz
  rw [qmul, Rat.divInt_eq_div]
  conv_rhs => rw [← Rat.num_div_den a, ← Rat.num_div_den b]
  push_cast
  field_simp

theorem qdiv_eq (a b : Rat) : qdiv a b = a / b := by
  rcases eq_or_ne b 0 with hb | hb
  · subst hb
    simp [qdiv, Rat.divInt_eq_div]
  · have had : ((a.den : Rat)) ≠ 0 := Nat.cast_ne_zero.mpr a.den_nz
    have hbd : ((b.den : Rat)) ≠ 0 := Nat.cast_ne_zero.mpr b.den_nz
    have hbn : ((b.num : Rat)) ≠ 0 := Int.cast_ne_zero.mpr (Rat.num_ne_zero.mpr hb)
    rw [qdiv, Rat.divInt_eq_div]
    conv_rhs => rw [← Rat.num_div_den a, ← Rat.num_div_den b]
    push_cast
    field_simp

theorem qmin_eq (a b : Rat) : qmin a b = min a b := by
  simp [qmin, min_def]

theorem qabs_eq (a : Rat) : qabs a = |a| := by
  rcases lt_or_le a 0 with h | h
  · simp [qabs, h, abs_of_neg h, qsub_eq]
  · simp [qabs, not_lt.mpr h, abs_of_nonneg h]

/-! ## Geometry model (greedy_labeler.hpp / helpers in greedy_labeler.cpp) -/

/-- `struct Rect`: axis-aligned box `{xmin, ymin, xmax, ymax}`. -/
structure Rect where
  xmin : Rat
  ymin : Rat
  xmax : Rat
  ymax : Rat
deriving DecidableEq, Repr, Inhabited

/-- `struct LabelCandidate`: anchored square candidate label. -/
structure LabelCandidate where
  anchor : Rat × Rat
  size : Rat
  corner : Nat
  weight : Rat
  valid : Bool
deriving DecidableEq, Repr

instance : Inhabited LabelCandidate := ⟨⟨(0, 0), 0, 0, 0, false⟩⟩

/-- `rectContainsPoint`: open-interior containment (edges allowed). -/
def rectContainsPoint (r : Rect) (x y : Rat) : Bool :=
  decide (x > r.xmin) && decide (x < r.xmax) && decide (y > r.ymin) && decide (y < r.ymax)

/-- `overlapsStrict`: open interiors intersect (edges may touch). -/
def overlapsStrict (a b : Rect) : Bool :=
  decide (a.xmin < b.xmax) && decide (a.xmax > b.xmin) &&
    decide (a.ymin < b.ymax) && decide (a.ymax > b.ymin)

/-- Separation of `rectGap` along one axis: the clamped difference used by the
source (`0` when the projections touch or overlap). -/
def axisGap (amin amax bmin bmax : Rat) : Rat :=
  if amax < bmin then qsub bmin amax
  else if bmax < amin then qsub amin bmax
  else 0

/-- `rectGap` squared.  The source computes `sqrt(dx*dx + dy*dy)`; since the
algorithm only ever compares gaps with `<`, `min` and `== 0`, and squaring is
strictly monotone on nonnegative values, the embedding works with the square
of the Euclidean gap throughout. -/
def rectGapSq (a b : Rect) : Rat :=
  let dx := axisGap a.xmin a.xmax b.xmin b.xmax
  let dy := axisGap a.ymin a.ymax b.ymin b.ymax
  qadd (qmul dx dx) (qmul dy dy)

/-- `getAABB`: rectangle of a candidate.  Corner `1`/`2` (right corners) put
`xmin` at the anchor, corner `≥ 2` (bottom corners) put `ymin` at the anchor. -/
def getAABB (c : LabelCandidate) : Rect :=
  let x := c.anchor.1
  let y := c.anchor.2
  let s := c.size
  let xmin := if c.corner = 1 ∨ c.corner = 2 then x else qsub x s
  let ymin := if 2 ≤ c.corner then y else qsub y s
  { xmin := xmin, ymin := ymin, xmax := qadd xmin s, ymax := qadd ymin s }

/-- `ownerOf`: candidate index to owning point index. -/
def ownerOf (candIndex perPoint : Nat) : Nat :=
  if perPoint ≠ 0 then candIndex / perPoint else 0

/-- `generateLabelCandidates`: four candidates (one per corner, in order
`0,1,2,3`) per point, all initially `valid = false`, `weight = 1`. -/
def generateLabelCandidates (pts : List (Rat × Rat)) (baseSize : Rat) :
    List LabelCandidate :=
  List.flatten <| (List.range pts.length).map fun pid =>
    (List.range 4).map fun corner =>
      { anchor := pts.getD pid (0, 0), size := baseSize, corner := corner,
        weight := 1, valid := false }

/-! ## Spatial hashing (PointGrid / RectGrid queries)

The C++ code buckets points and rectangles into a `std::unordered_map` keyed
by cell `(⌊x/cs⌋, ⌊y/cs⌋)`.  The map contains, for every cell, exactly the
indices inserted for that cell, so each grid query below is embedded as the
extensional content of the corresponding cell-scanning loop: a query that
scans the cells covered by a rectangle reaches exactly the entries whose
recorded cell (for points) or cell range (for rects) meets that range. -/

/-- `cellOf`: grid cell coordinate of a scalar, `(int)std::floor(v / cs)`. -/
def cellOf (v cs : Rat) : Int := Rat.floor (qdiv v cs)

/-- Cell of a 2-d point (the key under which `PointGrid` stores it). -/
def ptCell (cs : Rat) (p : Rat × Rat) : Int × Int := (cellOf p.1 cs, cellOf p.2 cs)

/-- `PointGrid::anyInside`: scans the cells covered by `r` and tests every
point stored there (except index `ignoreIdx`) for strict containment.  A point
with index `j` is stored exactly in cell `ptCell cs pts[j]`. -/
def anyInside (cs : Rat) (pts : List (Rat × Rat)) (r : Rect) (ignoreIdx : Nat) : Bool :=
  let x0 := cellOf r.xmin cs
  let x1 := cellOf r.xmax cs
  let y0 := cellOf r.ymin cs
  let y1 := cellOf r.ymax cs
  pts.enum.any fun jp =>
    decide (jp.1 ≠ ignoreIdx) &&
      decide (x0 ≤ (ptCell cs jp.2).1) && decide ((ptCell cs jp.2).1 ≤ x1) &&
      decide (y0 ≤ (ptCell cs jp.2).2) && decide ((ptCell cs jp.2).2 ≤ y1) &&
      rectContainsPoint r jp.2.1 jp.2.2

/-- `PointGrid::localCount`: number of points stored in the 3×3 cell
neighbourhood of `(x, y)`. -/
def localCount (cs : Rat) (pts : List (Rat × Rat)) (x y : Rat) : Nat :=
  let c := (cellOf x cs, cellOf y cs)
  (pts.filter fun p =>
    decide ((ptCell cs p).1 - c.1 ≤ 1) && decide (c.1 - (ptCell cs p).1 ≤ 1) &&
      decide ((ptCell cs p).2 - c.2 ≤ 1) && decide (c.2 - (ptCell cs p).2 ≤ 1)).length

/-- The cell ranges of two rectangles intersect; a rect inserted into the
`RectGrid` is recorded in every cell of its range, so a query over `r`'s cell
range reaches rect `x` exactly when this holds. -/
def cellRangesHit (cs : Rat) (r x : Rect) : Bool :=
  decide (max (cellOf r.xmin cs) (cellOf x.xmin cs) ≤ min (cellOf r.xmax cs) (cellOf x.xmax cs)) &&
    decide (max (cellOf r.ymin cs) (cellOf x.ymin cs) ≤ min (cellOf r.ymax cs) (cellOf x.ymax cs))

/-- `RectGrid::overlapsAny`: strict overlap against any stored rect reachable
through the cells covered by `r`. -/
def rgOverlapsAny (cs : Rat) (rects : List Rect) (r : Rect) : Bool :=
  rects.any fun x => cellRangesHit cs r x && overlapsStrict r x

/-- `RectGrid::minGapToAny` (squared; `none` plays the role of `+infinity`):
minimum `rectGap` over the stored rects reachable through the cells covered
by `r`.  Duplicate visits of one rect through several cells do not change a
minimum, so the embedding folds over each reachable rect once. -/
def rgMinGapSq (cs : Rat) (rects : List Rect) (r : Rect) : Option Rat :=
  rects.foldl
    (fun best x =>
      if cellRangesHit cs r x then
        match best with
        | none => some (rectGapSq r x)
        | some b => some (qmin b (rectGapSq r x))
      else best)
    none

/-! ## Sorting helpers

`std::sort` is unstable, but every comparator the source uses is either a
strict total order (distinct keys) or is invoked in runs whose outcome does
not depend on the order of tied keys; the embedding fixes the stable
insertion sort below.  `before y x = true` means `y` stays in front of `x`. -/

/-- Insert `x` behind the maximal prefix of elements `y` with `before y x`. -/
def insSorted {a : Type} (before : a → a → Bool) (x : a) : List a → List a
  | [] => [x]
  | y :: ys => if before y x then y :: insSorted before x ys else x :: y :: ys

/-- Stable insertion sort: `sortByB before l` orders `l` so that `y` precedes
`x` whenever `before y x`, keeping the original order of tied elements. -/
def sortByB {a : Type} (before : a → a → Bool) (l : List a) : List a :=
  l.foldr (insSorted before) []

/-- `std::unique` on a sorted list: drop adjacent duplicates. -/
def dedupAdj : List Nat → List Nat
  | [] => []
  | [x] => [x]
  | x :: y :: rest => if x = y then dedupAdj (y :: rest) else x :: dedupAdj (y :: rest)

/-! ## Corner clearance heuristic (orthantClearanceGrid /
chooseFixedCornersByConflicts) -/

/-- Bounds of the occupied grid cells (`minCx/maxCx/minCy/maxCy`).  The C++
initialises them to `INT_MAX/INT_MIN` and only ever uses them for a nonempty
point set; the embedding is defined for nonempty cell lists (the `[]` case is
unreachable from the call sites, which guard `N == 0`). -/
def gridBounds (cells : List (Int × Int)) : Int × Int × Int × Int :=
  match cells with
  | [] => (0, 0, 0, 0)
  | c :: rest =>
    rest.foldl
      (fun b d => (min b.1 d.1, max b.2.1 d.1, min b.2.2.1 d.2, max b.2.2.2 d.2))
      (c.1, c.1, c.2, c.2)

/-- `PointGrid::withinBounds`. -/
def withinBounds (b : Int × Int × Int × Int) (cx cy : Int) : Bool :=
  decide (b.1 ≤ cx) && decide (cx ≤ b.2.1) && decide (b.2.2.1 ≤ cy) && decide (cy ≤ b.2.2.2)

/-- Merge a candidate clearance value into the running best (`none` = +inf). -/
def omin (best : Option Rat) (v : Rat) : Option Rat :=
  match best with
  | none => some v
  | some b => some (qmin b v)

/-- Scan one grid cell of a ring: every point `j ≠ i` stored in `cell` whose
offset from `(xi, yi)` lies strictly (beyond `eps`) inside the orthant
`(sx, sy)` contributes `min |dx| |dy|` to the running best clearance. -/
def scanCell (cs : Rat) (pts : List (Rat × Rat)) (i : Nat) (xi yi : Rat)
    (sx sy : Int) (eps : Rat) (cell : Int × Int) (best : Option Rat) : Option Rat :=
  pts.enum.foldl
    (fun b jp =>
      if jp.1 ≠ i ∧ ptCell cs jp.2 = cell then
        let dx := qsub jp.2.1 xi
        let dy := qsub jp.2.2 yi
        if eps < qmul dx (mkq sx 1) ∧ eps < qmul dy (mkq sy 1) then
          omin b (qmin (qabs dx) (qabs dy))
        else b
      else b)
    best

/-- The cells of ring `r` in orthant `(sx, sy)`: the x-edge
`(cx + sx*r, cy + sy*k)` for `k = 1..r` followed by the y-edge
`(cx + sx*k, cy + sy*r)` for `k = 1..r`, in the source's scan order. -/
def ringCells (cx cy : Int) (sx sy : Int) (r : Nat) : List (Int × Int) :=
  ((List.range r).map fun k => (cx + sx * (r : Int), cy + sy * ((k : Int) + 1))) ++
    ((List.range r).map fun k => (cx + sx * ((k : Int) + 1), cy + sy * (r : Int)))

/-- Process the cells of one ring: visit in-bounds cells (recording `touched`)
and fold `scanCell` over them. -/
def ringScan (cs : Rat) (pts : List (Rat × Rat)) (b : Int × Int × Int × Int)
    (i : Nat) (xi yi : Rat) (sx sy : Int) (eps : Rat) (cells : List (Int × Int))
    (acc : Bool × Option Rat) : Bool × Option Rat :=
  cells.foldl
    (fun tb cell =>
      if withinBounds b cell.1 cell.2 then
        (true, scanCell cs pts i xi yi sx sy eps cell tb.2)
      else tb)
    acc

/-- Ring loop of `orthantClearanceGrid`: rings `r = 1, 2, ...` with the two
early exits of the source (best provably unbeatable by farther rings; ring
untouched and past the occupied bounds on both axes). -/
def orthantLoop (cs : Rat) (pts : List (Rat × Rat)) (b : Int × Int × Int × Int)
    (i : Nat) (xi yi : Rat) (cx cy : Int) (sx sy : Int) (eps : Rat) :
    Nat → Nat → Option Rat → Option Rat
  | _, 0, best => best
  | r, fuel + 1, best =>
    let tb := ringScan cs pts b i xi yi sx sy eps (ringCells cx cy sx sy r) (false, best)
    match tb.2 with
    | some v =>
      if qsub v eps ≤ qmul (mkq (r : Int) 1) cs then some v
      else
        if ¬tb.1 ∧ (if 0 < sx then b.2.1 < cx + (r : Int) else cx - (r : Int) < b.1) ∧
            (if 0 < sy then b.2.2.2 < cy + (r : Int) else cy - (r : Int) < b.2.2.1) then
          some v
        else orthantLoop cs pts b i xi yi cx cy sx sy eps (r + 1) fuel (some v)
    | none =>
      if ¬tb.1 ∧ (if 0 < sx then b.2.1 < cx + (r : Int) else cx - (r : Int) < b.1) ∧
          (if 0 < sy then b.2.2.2 < cy + (r : Int) else cy - (r : Int) < b.2.2.1) then
        none
      else orthantLoop cs pts b i xi yi cx cy sx sy eps (r + 1) fuel none

/-- `orthantClearanceGrid`: minimum Chebyshev-style clearance (`min |dx| |dy|`)
to a point of the grid lying strictly inside orthant `(sx, sy)` of point `i`,
computed by expanding cell rings; `none` is the source's `+infinity`. -/
def orthantClearanceGrid (cs : Rat) (pts : List (Rat × Rat)) (i : Nat)
    (xi yi : Rat) (sx sy : Int) (eps : Rat) : Option Rat :=
  let cells := pts.map (ptCell cs)
  let b := gridBounds cells
  let cx := cellOf xi cs
  let cy := cellOf yi cs
  let maxR := (2 + max (b.2.1 - b.1) (b.2.2.2 - b.2.2.1)).toNat
  orthantLoop cs pts b i xi yi cx cy sx sy eps 1 maxR none

/-- Selection loop of `chooseFixedCornersByConflicts`: first non-finite
clearance wins immediately; otherwise keep the first strict maximum.  `best`
starts at corner `0` with sentinel value `-1`. -/
def selLoop : List (Nat × Option Rat) → Nat → Rat → Nat
  | [], best, _ => best
  | (c, v) :: rest, best, bestV =>
    match v with
    | none => c
    | some x => if bestV < x then selLoop rest c x else selLoop rest best bestV

/-- `chooseFixedCornersByConflicts`: per point, pick the orthant of maximal
grid clearance among TL `(-1,-1)`, TR `(+1,-1)`, BR `(+1,+1)`, BL `(-1,+1)`,
scanning in that order.  The cell size is the source's hard-coded `0.05f`
(idealised to `1/20`) and `eps` is `1e-6f` (idealised to `1/1000000`);
`baseSize` is ignored, as in the source. -/
def chooseFixedCornersByConflicts (points : List (Rat × Rat)) (_baseSize : Rat) :
    List Nat :=
  if points.length = 0 then []
  else
    let cs := mkq 1 20
    let eps := mkq 1 1000000
    (List.range points.length).map fun i =>
      let p := points.getD i (0, 0)
      let cTL := orthantClearanceGrid cs points i p.1 p.2 (-1) (-1) eps
      let cTR := orthantClearanceGrid cs points i p.1 p.2 1 (-1) eps
      let cBR := orthantClearanceGrid cs points i p.1 p.2 1 1 eps
      let cBL := orthantClearanceGrid cs points i p.1 p.2 (-1) 1 eps
      selLoop [(0, cTL), (1, cTR), (2, cBR), (3, cBL)] 0 (mkq (-1) 1)

/-! ## Monotone greedy engine (greedyPlaceMonotone) -/

/-- `struct MonotoneState` (greedy_labeler.hpp). -/
structure MonotoneState where
  lastBase : Rat
  active : List Nat
  fixedCorner : List Nat
  usedOnce : List Bool
deriving DecidableEq, Repr

/-- Default-constructed `MonotoneState` (`lastBase = -1.0`, empty vectors). -/
def initState : MonotoneState := ⟨mkq (-1) 1, [], [], []⟩

instance : Inhabited MonotoneState := ⟨initState⟩

/-- Write the `valid` flag of a candidate (the only field the placement passes
mutate after the corner/size prologue). -/
def setValid (c : LabelCandidate) (v : Bool) : LabelCandidate :=
  { c with valid := v }

/-- Mutable state of one placement pass of `greedyPlaceMonotone`: the
candidate vector, the `RectGrid` contents `rg`, the returned `placed` vector,
the `next_active` vector and the `isActiveNow` / `usedOnce` flags. -/
structure PassSt where
  cands : List LabelCandidate
  rg : List Rect
  placed : List Rect
  nextActive : List Nat
  isActiveNow : List Bool
  usedOnce : List Bool
deriving Repr

/-- The shared accept step of the keep pass and the growth pass: test the
candidate's rectangle for foreign-point containment (skipping `pid`) and for
overlap with the rectangles placed so far; on success mark it valid, insert
the rectangle, and record the index as active. -/
def tryAccept (cs : Rat) (pts : List (Rat × Rat)) (st : PassSt) (pid idx : Nat) :
    PassSt :=
  let c := st.cands.getD idx default
  let r := getAABB c
  if anyInside cs pts r pid || rgOverlapsAny cs st.rg r then st
  else
    { cands := st.cands.set idx (setValid c true),
      rg := st.rg ++ [r],
      placed := st.placed ++ [r],
      nextActive := st.nextActive ++ [idx],
      isActiveNow := st.isActiveNow.set pid true,
      usedOnce := st.usedOnce.set pid true }

/-- Result of `greedyPlaceMonotone`: the updated candidate vector, the placed
rectangles (return value) and the updated state (written through the pointer). -/
structure GPMResult where
  cands : List LabelCandidate
  placed : List Rect
  state : MonotoneState
deriving Repr

/-- Density of a point used by the growth-pass ordering. -/
def densOf (cs : Rat) (pts : List (Rat × Rat)) (pid : Nat) : Nat :=
  localCount cs pts (pts.getD pid (0, 0)).1 (pts.getD pid (0, 0)).2

/-- Fixed corners used by a `greedyPlaceMonotone` call: the cached vector when
its length matches the point count, else freshly recomputed. -/
def gpmFc (points : List (Rat × Rat)) (baseSize : Rat) (state : MonotoneState) :
    List Nat :=
  if state.fixedCorner.length = points.length then state.fixedCorner
  else chooseFixedCornersByConflicts points baseSize

/-- Candidate prologue of `greedyPlaceMonotone`: reset `size` to `baseSize`
and `valid` to `false` on every candidate, then write the point's fixed
corner onto each candidate whose owner index is in range. -/
def gpmPrologue (candidates : List LabelCandidate) (points : List (Rat × Rat))
    (baseSize : Rat) (state : MonotoneState) : List LabelCandidate :=
  ((candidates.map fun c => { c with size := baseSize, valid := false }).enum.map
    fun kc =>
      if kc.1 / 4 < points.length then
        { kc.2 with corner := (gpmFc points baseSize state).getD (kc.1 / 4) 0 }
      else kc.2)

/-- Keep list of `greedyPlaceMonotone`: previous active indices re-mapped to
their point's fixed-corner slot, sorted ascending and deduplicated. -/
def gpmKeepList (points : List (Rat × Rat)) (baseSize : Rat)
    (state : MonotoneState) : List Nat :=
  dedupAdj (sortByB (fun y x => decide (y ≤ x))
    (state.active.filterMap fun idx =>
      let pid := ownerOf idx 4
      if pid < points.length then
        some (pid * 4 + (gpmFc points baseSize state).getD pid 0)
      else none))

/-- Pass state after the keep pass of `greedyPlaceMonotone`. -/
def gpmAfterKeep (candidates : List LabelCandidate) (points : List (Rat × Rat))
    (baseSize : Rat) (state : MonotoneState) : PassSt :=
  (gpmKeepList points baseSize state).foldl
    (fun s idx => tryAccept baseSize points s (ownerOf idx 4) idx)
    ⟨gpmPrologue candidates points baseSize state, [], [], [],
      List.replicate points.length false,
      if state.usedOnce.length = points.length then state.usedOnce
      else List.replicate points.length false⟩

/-- Growth-pass visitation order: the not-yet-active points, densest first
(`std::sort` with comparator `dens[a] > dens[b]`; ties are embedded in
original index order). -/
def gpmOrder (points : List (Rat × Rat)) (baseSize : Rat) (st1 : PassSt) :
    List Nat :=
  sortByB (fun y x => decide (densOf baseSize points x < densOf baseSize points y))
    ((List.range points.length).filter fun pid => !(st1.isActiveNow.getD pid false))

/-- Pass state at the end of `greedyPlaceMonotone`: the growth pass runs only
when zooming out (`state` uninitialised or `baseSize < lastBase`). -/
def gpmFinalSt (candidates : List LabelCandidate) (points : List (Rat × Rat))
    (baseSize : Rat) (state : MonotoneState) : PassSt :=
  let st1 := gpmAfterKeep candidates points baseSize state
  if !decide (0 ≤ state.lastBase) || decide (baseSize < state.lastBase) then
    (gpmOrder points baseSize st1).foldl
      (fun s pid =>
        tryAccept baseSize points s pid
          (pid * 4 + (gpmFc points baseSize state).getD pid 0))
      st1
  else st1

/-- `greedyPlaceMonotone` (greedy_labeler.cpp, lines 491-597), with the
`MonotoneState*` turned into explicit state passing.

Steps, in source order: reset `size`/`valid` on all candidates; early return
(resetting the state) on empty input; recompute `fixedCorner` when its length
differs from `N` (`gpmFc`); write the fixed corner onto all four candidates
of every point (`gpmPrologue`); re-initialise `usedOnce` when its length
differs from `N`; `zoomingOut = !havePrev || baseSize < lastBase`; keep pass
over the re-mapped, sorted, deduplicated previous active indices
(`gpmAfterKeep`); growth pass (only when zooming out) over the
not-yet-active points in order of decreasing density (`gpmFinalSt`); finally
publish `active`/`lastBase`. -/
def greedyPlaceMonotone (candidates : List LabelCandidate)
    (points : List (Rat × Rat)) (baseSize : Rat) (state : MonotoneState) :
    GPMResult :=
  if points.length = 0 ∨ candidates.isEmpty then
    { cands := candidates.map fun c => { c with size := baseSize, valid := false },
      placed := [], state := { initState with lastBase := baseSize } }
  else
    let st2 := gpmFinalSt candidates points baseSize state
    { cands := st2.cands,
      placed := st2.placed,
      state :=
        { lastBase := baseSize, active := st2.nextActive,
          fixedCorner := gpmFc points baseSize state,
          usedOnce := st2.usedOnce } }

/-- `greedyPlaceOneLabelPerPoint`: the exported shim.  The C++ keeps a
function-local `static MonotoneState`; the embedding threads that state
explicitly.  `baseSize` is `0.02f` (idealised `1/50`) for an empty candidate
vector, else `candidates[0].size`. -/
def greedyPlaceOneLabelPerPoint (st : MonotoneState)
    (candidates : List LabelCandidate) (points : List (Rat × Rat)) : GPMResult :=
  let baseSize := if candidates.isEmpty then mkq 1 50
    else (candidates.headD default).size
  greedyPlaceMonotone candidates points baseSize st

/-! ## Density-ordered unconstrained engine (greedyPlaceInternal) -/

/-- Score of a candidate rectangle in `greedyPlaceInternal`: `minGapToAny`
with a non-finite value (empty scan) coerced to `0`. -/
def scoreOf (g : Option Rat) : Rat :=
  match g with
  | none => 0
  | some v => v

/-- The running best of the inner candidate loop is `0` (the loop's early
exit `if (bestScore == 0.f) break`). -/
def bestIsZero : Option (Rat × Nat × Rect) → Bool
  | none => false
  | some b => decide (b.1 = 0)

/-- Update of the running best of the inner candidate loop:
`if (score < bestScore) { bestScore = score; bestIdx = k; bestRect = r; }`,
where `none` is the initial `bestScore = +infinity`. -/
def bestUpdate (score : Rat) (k : Nat) (r : Rect) :
    Option (Rat × Nat × Rect) → Option (Rat × Nat × Rect)
  | none => some (score, k, r)
  | some b => if score < b.1 then some (score, k, r) else some b

/-- Inner candidate loop of `greedyPlaceInternal` for point `pid`: scan
`j = 0, 1, ...` while `j < perPoint` and `pid*perPoint + j` is in range; skip
candidates whose rectangle contains a foreign point or overlaps an accepted
rectangle; keep the first strict minimiser of the score; stop early when the
best score reaches `0`.  `fuel` is an upper bound on the remaining
iterations (`perPoint` at the top call). -/
def findBest (cs : Rat) (pts : List (Rat × Rat)) (cands : List LabelCandidate)
    (rgRects : List Rect) (pid perPoint : Nat) :
    Nat → Nat → Option (Rat × Nat × Rect) → Option (Rat × Nat × Rect)
  | 0, _, best => best
  | fuel + 1, j, best =>
    if j < perPoint ∧ pid * perPoint + j < cands.length then
      let k := pid * perPoint + j
      let r := getAABB (cands.getD k default)
      if anyInside cs pts r pid || rgOverlapsAny cs rgRects r then
        findBest cs pts cands rgRects pid perPoint fuel (j + 1) best
      else
        let score := scoreOf (rgMinGapSq cs rgRects r)
        let best2 := bestUpdate score k r best
        if bestIsZero best2 then best2
        else findBest cs pts cands rgRects pid perPoint fuel (j + 1) best2
    else best

/-- Per-point step of `greedyPlaceInternal`: run the inner loop and, on
success, mark the winner valid, append its rectangle to `placed`, and insert
it into the rectangle index.  State is `(candidates, rg contents, placed)`. -/
def processPoint (cs : Rat) (pts : List (Rat × Rat)) (perPoint : Nat)
    (st : List LabelCandidate × List Rect × List Rect) (pid : Nat) :
    List LabelCandidate × List Rect × List Rect :=
  match findBest cs pts st.1 st.2.1 pid perPoint perPoint 0 none with
  | some b =>
    (st.1.set b.2.1 (setValid (st.1.getD b.2.1 default) true),
      st.2.1 ++ [b.2.2], st.2.2 ++ [b.2.2])
  | none => st

/-- `greedyPlaceInternal` (greedy_labeler.cpp, lines 416-486): density-first
greedy over all `perPoint` candidates of every point.  The ordering
comparator (`pointKey` ascending, density descending, index ascending) is a
strict total order, so the `std::sort` result is unique. -/
def greedyPlaceInternal (candidates : List LabelCandidate)
    (points : List (Rat × Rat)) :
    List LabelCandidate × List Rect :=
  let cands0 := candidates.map fun c => { c with valid := false }
  if points.isEmpty ∨ candidates.isEmpty then (cands0, [])
  else
    let N := points.length
    let perPoint := max 1 (candidates.length / N)
    let cs := (candidates.headD default).size
    let dens := fun i => densOf cs points i
    let order := sortByB
      (fun y x => decide (dens x < dens y) || (decide (dens y = dens x) && decide (y < x)))
      (List.range N)
    let fin := order.foldl (processPoint cs points perPoint) (cands0, [], [])
    (fin.1, fin.2.2)

/-! ## Batch threshold tool (tools/csv_labeler.cpp)

`runAtScale` calls `greedyPlaceOneLabelPerPoint`, which in the C++ uses one
function-local `static MonotoneState` persisting across all invocations; the
embedding threads that state through every call explicitly. -/

/-- Outcome of one `runAtScale` call: per-point aliveness, per-point chosen
corner (`-1` when unlabeled), and the static state after the call. -/
structure ScaleResult where
  alive : List Bool
  chosenCorner : List Int
  state : MonotoneState
deriving DecidableEq, Repr

/-- `runAtScale` (csv_labeler.cpp, lines 57-71): regenerate the candidates at
size `S`, run the greedy shim, and read off, per point, whether some of its
four candidates is valid and which corner the first valid one carries. -/
def runAtScale (st : MonotoneState) (pts : List (Rat × Rat)) (S : Rat) :
    ScaleResult :=
  let res := greedyPlaceOneLabelPerPoint st (generateLabelCandidates pts S) pts
  let N := pts.length
  let firstValid := fun i =>
    (List.range 4).find? fun c => (res.cands.getD (i * 4 + c) default).valid
  { alive := (List.range N).map fun i => (firstValid i).isSome,
    chosenCorner := (List.range N).map fun i =>
      match firstValid i with
      | some c => ((res.cands.getD (i * 4 + c) default).corner : Int)
      | none => -1,
    state := res.state }

/-- Per-point search bracket of `computeZoomThresholds`. -/
structure SearchIv where
  lo : Rat
  hi : Rat
  resolved : Bool
deriving DecidableEq, Repr

instance : Inhabited SearchIv := ⟨⟨0, 0, false⟩⟩

/-- Accumulated search state of `computeZoomThresholds`: brackets, reported
sizes and corners, run counters, and the greedy engine's (static) state. -/
structure SearchSt where
  iv : List SearchIv
  size : List Rat
  corner : List Int
  growthRuns : Nat
  refineRuns : Nat
  sweepRuns : Nat
  engine : MonotoneState
deriving DecidableEq, Repr

/-- Bracket update of the sweep phase for one point: an alive point raises its
feasible lower bound (recording size and corner), a dead one lowers its
infeasible upper bound. -/
def sweepUpdate (S : Rat) (aliveNow : List Bool) (chosenNow : List Int)
    (st : SearchSt) : SearchSt :=
  let n := st.iv.length
  { st with
    iv := (List.range n).map fun p =>
      let v := st.iv.getD p default
      if aliveNow.getD p false then
        if v.lo < S then { v with lo := S } else v
      else
        if S < v.hi then { v with hi := S } else v,
    size := (List.range n).map fun p =>
      if aliveNow.getD p false ∧ (st.iv.getD p default).lo < S then S
      else st.size.getD p 0,
    corner := (List.range n).map fun p =>
      if aliveNow.getD p false ∧ ((st.iv.getD p default).lo < S) ∧
          0 ≤ chosenNow.getD p (-1) then
        chosenNow.getD p (-1)
      else st.corner.getD p 0 }

/-- Sweep phase (multi-sample pre-pass) over an explicit list of probe sizes.
The C++ derives the probe sizes by log-spacing `exp(logMin + t*(logMax -
logMin))`, a transcendental computation with no exact rational counterpart;
the embedding therefore takes the probe list as a parameter. -/
def sweepPhase (pts : List (Rat × Rat)) (sizes : List Rat) (st : SearchSt) :
    SearchSt :=
  sizes.foldl
    (fun s S =>
      let run := runAtScale s.engine pts S
      sweepUpdate S run.alive run.chosenCorner
        { s with sweepRuns := s.sweepRuns + 1, engine := run.state })
    st

/-- Mark brackets that are already tight after the sweep. -/
def markResolved (eps : Rat) (st : SearchSt) : SearchSt :=
  { st with
    iv := st.iv.map fun v =>
      if qsub v.hi v.lo ≤ eps then { v with resolved := true } else v }

/-- One growth-phase bracket update: an alive point raises its lower bound
(with size/corner); a point dying for the first time fixes its upper bound. -/
def growthUpdate (S : Rat) (aliveNow : List Bool) (chosenNow : List Int)
    (alive : List Bool) (st : SearchSt) : List Bool × SearchSt :=
  let n := st.iv.length
  ((List.range n).map fun i =>
      if aliveNow.getD i false then alive.getD i false
      else false,
    { st with
      iv := (List.range n).map fun i =>
        let v := st.iv.getD i default
        if aliveNow.getD i false then
          if v.lo < S then { v with lo := S } else v
        else if alive.getD i false then { v with hi := S } else v,
      size := (List.range n).map fun i =>
        if aliveNow.getD i false ∧ (st.iv.getD i default).lo < S then S
        else st.size.getD i 0,
      corner := (List.range n).map fun i =>
        if aliveNow.getD i false ∧ ((st.iv.getD i default).lo < S) ∧
            0 ≤ chosenNow.getD i (-1) then
          chosenNow.getD i (-1)
        else st.corner.getD i 0 })

/-- Growth phase (coarse expansion): run the oracle at `S`, update brackets,
stop when every point has died once, else multiply `S` by `growth`, clamping
at `Smax`.  `fuel` bounds the iterations (`maxGrowth` at the top call); the
loop also stops when `S` reaches `Smax`. -/
def growthLoop (pts : List (Rat × Rat)) (Smax growth : Rat) :
    Nat → Rat → List Bool → SearchSt → List Bool × SearchSt
  | 0, _, alive, st => (alive, st)
  | fuel + 1, S, alive, st =>
    if S < Smax then
      let run := runAtScale st.engine pts S
      let upd := growthUpdate S run.alive run.chosenCorner alive
        { st with growthRuns := st.growthRuns + 1, engine := run.state }
      if upd.1.any id then
        let S2 := qmul S growth
        growthLoop pts Smax growth fuel (if Smax < S2 then Smax else S2) upd.1 upd.2
      else upd
    else (alive, st)

/-- After the growth loop, clamp the upper bound of every still-alive point. -/
def clampAlive (Smax : Rat) (alive : List Bool) (st : SearchSt) : SearchSt :=
  { st with
    iv := st.iv.enum.map fun iv2 =>
      if alive.getD iv2.1 false then { iv2.2 with hi := qmin iv2.2.hi Smax }
      else iv2.2 }

/-- One refinement round: collect the midpoints of the unresolved brackets,
probe their median (`nth_element` at `size/2` of the sorted midpoints), and
update every unresolved bracket from that single run, marking brackets of
width at most `eps` resolved. -/
def refineStep (pts : List (Rat × Rat)) (eps : Rat) (st : SearchSt) :
    Bool × SearchSt :=
  let mids := (st.iv.filter fun v => !v.resolved && decide (eps < qsub v.hi v.lo)).map
    fun v => qmul (qadd v.lo v.hi) (mkq 1 2)
  if mids.isEmpty then (false, st)
  else
    let sorted := sortByB (fun y x => decide (y ≤ x)) mids
    let testS := sorted.getD (mids.length / 2) 0
    let run := runAtScale st.engine pts testS
    let n := st.iv.length
    let st2 :=
      { st with
        refineRuns := st.refineRuns + 1,
        engine := run.state,
        iv := (List.range n).map fun i =>
          let v := st.iv.getD i default
          if v.resolved then v
          else
            let v2 := if run.alive.getD i false then { v with lo := testS }
              else { v with hi := testS }
            if qsub v2.hi v2.lo ≤ eps then { v2 with resolved := true } else v2,
        size := (List.range n).map fun i =>
          if !(st.iv.getD i default).resolved ∧ run.alive.getD i false then testS
          else st.size.getD i 0,
        corner := (List.range n).map fun i =>
          if !(st.iv.getD i default).resolved ∧ run.alive.getD i false ∧
              0 ≤ run.chosenCorner.getD i (-1) then
            run.chosenCorner.getD i (-1)
          else st.corner.getD i 0 }
    let anyUnresolved := st2.iv.any fun v => !v.resolved
    (anyUnresolved, st2)

/-- Refinement loop (`fuel = maxRefine` rounds at most, stopping when no
bracket is left unresolved or no midpoint was collected). -/
def refineLoop (pts : List (Rat × Rat)) (eps : Rat) :
    Nat → SearchSt → SearchSt
  | 0, st => st
  | fuel + 1, st =>
    let step := refineStep pts eps st
    if step.1 then refineLoop pts eps fuel step.2 else step.2

/-- `computeZoomThresholds` (csv_labeler.cpp, lines 73-152), with the sweep
probe sizes passed explicitly (see `sweepPhase`) and the engine's static
state threaded. -/
def computeZoomThresholds (pts : List (Rat × Rat)) (sweepSizes : List Rat)
    (Smin Smax eps growth : Rat) (maxGrowth maxRefine : Nat)
    (multiSample : Bool) (engine0 : MonotoneState) : SearchSt :=
  let n := pts.length
  let st0 : SearchSt :=
    { iv := List.replicate n ⟨Smin, Smax, false⟩,
      size := List.replicate n Smin,
      corner := List.replicate n 0,
      growthRuns := 0, refineRuns := 0, sweepRuns := 0,
      engine := engine0 }
  if n = 0 then st0
  else
    let st1 := if multiSample then markResolved eps (sweepPhase pts sweepSizes st0)
      else st0
    let g := growthLoop pts Smax growth maxGrowth Smin (List.replicate n true) st1
    let st2 := clampAlive Smax g.1 g.2
    refineLoop pts eps maxRefine st2

/-- One output row of `write_results_csv`: `x, y, side, size, corner`, where
a `none` side is printed as the text `INF`. -/
structure OutRecord where
  x : Rat
  y : Rat
  side : Option Rat
  sizeDup : Rat
  corner : Int
deriving DecidableEq, Repr

/-- Candidate marking in `main` (csv_labeler.cpp, lines 244-252): regenerate
candidates at size `0`, then set `valid = (c == chosen)` and copy the found
threshold size and corner onto the chosen candidate. -/
def markCandidates (pts : List (Rat × Rat)) (sizes : List Rat)
    (corners : List Int) : List LabelCandidate :=
  (generateLabelCandidates pts 0).enum.map fun kc =>
    let i := kc.1 / 4
    let c : Int := (kc.1 % 4 : Nat)
    let chosen := corners.getD i 0
    if c = chosen then
      { kc.2 with valid := true, corner := chosen.toNat, size := sizes.getD i 0 }
    else kc.2

/-- `write_results_csv` (csv_labeler.cpp, lines 173-189): per point, scan its
four candidates for the first valid one; `found` yields
`(side, side, corner)`, otherwise the row is `(INF, 0, 0)` (the `chosen`
variable keeps its initialiser `0`). -/
def writeResults (pts : List (Rat × Rat)) (cands : List LabelCandidate) :
    List OutRecord :=
  (List.range pts.length).map fun i =>
    let p := pts.getD i (0, 0)
    match (List.range 4).find? fun j => (cands.getD (i * 4 + j) default).valid with
    | some j =>
      let c := cands.getD (i * 4 + j) default
      { x := p.1, y := p.2, side := some c.size, sizeDup := c.size,
        corner := (c.corner : Int) }
    | none => { x := p.1, y := p.2, side := none, sizeDup := 0, corner := 0 }

/-! ## Basic lemmas about the geometry model and the grid queries -/

theorem overlapsStrict_iff {a b : Rect} :
    overlapsStrict a b = true ↔
      a.xmin < b.xmax ∧ b.xmin < a.xmax ∧ a.ymin < b.ymax ∧ b.ymin < a.ymax := by
  simp [overlapsStrict, and_assoc]

theorem overlapsStrict_comm (a b : Rect) : overlapsStrict a b = overlapsStrict b a := by
  rcases h : overlapsStrict b a with _ | _
  · rw [Bool.eq_false_iff]
    intro hab
    rw [Bool.eq_false_iff] at h
    exact h (overlapsStrict_iff.mpr (by have := overlapsStrict_iff.mp hab; tauto))
  · exact overlapsStrict_iff.mpr (by have := overlapsStrict_iff.mp h; tauto)

theorem rectContainsPoint_iff {r : Rect} {x y : Rat} :
    rectContainsPoint r x y = true ↔
      r.xmin < x ∧ x < r.xmax ∧ r.ymin < y ∧ y < r.ymax := by
  simp [rectContainsPoint, and_assoc]

theorem getAABB_setValid (c : LabelCandidate) (v : Bool) :
    getAABB (setValid c v) = getAABB c := rfl

theorem valid_setValid (c : LabelCandidate) (v : Bool) : (setValid c v).valid = v := rfl

theorem cellOf_eq (v cs : Rat) : cellOf v cs = Int.floor (v / cs) := by
  rw [cellOf, qdiv_eq]
  rfl

theorem cellOf_mono {cs : Rat} (hcs : 0 < cs) {v w : Rat} (h : v ≤ w) :
    cellOf v cs ≤ cellOf w cs := by
  rw [cellOf_eq, cellOf_eq]
  exact Int.floor_le_floor (by gcongr)

theorem getAABB_spread (c : LabelCandidate) :
    (getAABB c).xmax = (getAABB c).xmin + c.size ∧
      (getAABB c).ymax = (getAABB c).ymin + c.size := by
  simp [getAABB, qadd_eq]

theorem rectGapSq_nonneg (a b : Rect) : 0 ≤ rectGapSq a b := by
  rw [rectGapSq]
  simp only [qadd_eq, qmul_eq]
  have h1 := mul_self_nonneg (axisGap a.xmin a.xmax b.xmin b.xmax)
  have h2 := mul_self_nonneg (axisGap a.ymin a.ymax b.ymin b.ymax)
  linarith

theorem anyInside_iff {cs : Rat} (hcs : 0 < cs) {pts : List (Rat × Rat)} {r : Rect}
    {ig : Nat} :
    anyInside cs pts r ig = true ↔
      ∃ j, j < pts.length ∧ j ≠ ig ∧
        rectContainsPoint r (pts.getD j (0, 0)).1 (pts.getD j (0, 0)).2 = true := by
  rw [anyInside, List.any_eq_true]
  constructor
  · rintro ⟨⟨j, p⟩, hmem, hcond⟩
    simp only [Bool.and_eq_true, decide_eq_true_eq] at hcond
    have hget := List.mem_enum_iff_getElem?.mp hmem
    have hj : j < pts.length := by
      have := List.getElem?_eq_some.mp hget
      exact this.1
    refine ⟨j, hj, hcond.1.1.1.1.1, ?_⟩
    have hpd : pts.getD j (0, 0) = p := by
      simp [List.getD_eq_getElem?_getD, hget]
    rw [hpd]
    exact hcond.2
  · rintro ⟨j, hj, hne, hcont⟩
    refine ⟨(j, pts.getD j (0, 0)), ?_, ?_⟩
    · rw [List.mem_enum_iff_getElem?]
      simp [List.getElem?_eq_getElem hj, List.getD_eq_getElem?_getD]
    · have hc := rectContainsPoint_iff.mp hcont
      simp only [Bool.and_eq_true, decide_eq_true_eq]
      refine ⟨⟨⟨⟨⟨hne, ?_⟩, ?_⟩, ?_⟩, ?_⟩, hcont⟩
      · exact cellOf_mono hcs hc.1.le
      · exact cellOf_mono hcs hc.2.1.le
      · exact cellOf_mono hcs hc.2.2.1.le
      · exact cellOf_mono hcs hc.2.2.2.le

theorem rgOverlapsAny_iff {cs : Rat} (hcs : 0 < cs) {rects : List Rect} {r : Rect}
    (hr : r.xmin ≤ r.xmax ∧ r.ymin ≤ r.ymax)
    (hw : ∀ x ∈ rects, x.xmin ≤ x.xmax ∧ x.ymin ≤ x.ymax) :
    rgOverlapsAny cs rects r = true ↔ ∃ x ∈ rects, overlapsStrict r x = true := by
  rw [rgOverlapsAny, List.any_eq_true]
  constructor
  · rintro ⟨x, hx, hcond⟩
    rw [Bool.and_eq_true] at hcond
    exact ⟨x, hx, hcond.2⟩
  · rintro ⟨x, hx, hov⟩
    refine ⟨x, hx, ?_⟩
    rw [Bool.and_eq_true]
    refine ⟨?_, hov⟩
    have h := overlapsStrict_iff.mp hov
    have hxw := hw x hx
    rw [cellRangesHit]
    simp only [Bool.and_eq_true, decide_eq_true_eq]
    constructor
    · exact max_le (le_min (cellOf_mono hcs hr.1) (cellOf_mono hcs h.1.le))
        (le_min (cellOf_mono hcs h.2.1.le) (cellOf_mono hcs hxw.1))
    · exact max_le (le_min (cellOf_mono hcs hr.2) (cellOf_mono hcs h.2.2.1.le))
        (le_min (cellOf_mono hcs h.2.2.2.le) (cellOf_mono hcs hxw.2))

/-! ## Pass invariant of the monotone engine -/


/-- Well-formedness of the rectangles a pass works with. -/
theorem getAABB_wf {c : LabelCandidate} (h : 0 < c.size) :
    (getAABB c).xmin < (getAABB c).xmax ∧ (getAABB c).ymin < (getAABB c).ymax := by
  have hs := getAABB_spread c
  constructor <;> [rw [hs.1]; rw [hs.2]] <;> linarith

/-- Invariant maintained by the keep and growth passes over the pass state.
`base` is the candidate list after the prologue (sizes and corners written),
`fc` the fixed-corner vector in use. -/
structure PassInv (cs : Rat) (pts : List (Rat × Rat)) (fc : List Nat)
    (base : List LabelCandidate) (st : PassSt) : Prop where
  cands_len : st.cands.length = base.length
  shape : ∀ k : Nat, setValid (st.cands.getD k default) false =
    setValid (base.getD k default) false
  valid_iff : ∀ k : Nat, ((st.cands.getD k default).valid = true ↔ k ∈ st.nextActive)
  form : ∀ idx ∈ st.nextActive, idx / 4 < pts.length ∧
    idx = 4 * (idx / 4) + fc.getD (idx / 4) 0
  rg_eq : st.rg = st.nextActive.map fun idx => getAABB (base.getD idx default)
  placed_eq : st.placed = st.rg
  own_nodup : (st.nextActive.map (· / 4)).Nodup
  flags_len : st.isActiveNow.length = pts.length
  active_flag : ∀ pid : Nat, pid < pts.length →
    (st.isActiveNow.getD pid false = true ↔ pid ∈ st.nextActive.map (· / 4))
  no_overlap : st.rg.Pairwise fun a b => overlapsStrict a b = false
  no_occl : ∀ idx ∈ st.nextActive, ∀ q : Nat, q < pts.length → q ≠ idx / 4 →
    rectContainsPoint (getAABB (base.getD idx default)) (pts.getD q (0, 0)).1
      (pts.getD q (0, 0)).2 = false

/-- Shared hypotheses of the pass lemmas. -/
structure BaseHyps (cs : Rat) (pts : List (Rat × Rat)) (fc : List Nat)
    (base : List LabelCandidate) : Prop where
  hcs : 0 < cs
  hlen : base.length = 4 * pts.length
  hsz : ∀ k : Nat, k < base.length → (base.getD k default).size = cs
  hfc : ∀ pid : Nat, pid < pts.length → fc.getD pid 0 < 4

theorem BaseHyps.idx_lt {cs pts fc base} (H : BaseHyps cs pts fc base)
    {pid : Nat} (hpidN : pid < pts.length) {idx : Nat}
    (hform : idx = 4 * pid + fc.getD pid 0) : idx < base.length := by
  have h4 := H.hfc pid hpidN
  rw [H.hlen, hform]
  omega

theorem BaseHyps.wf_at {cs pts fc base} (H : BaseHyps cs pts fc base)
    {idx : Nat} (h : idx < base.length) :
    (getAABB (base.getD idx default)).xmin < (getAABB (base.getD idx default)).xmax ∧
      (getAABB (base.getD idx default)).ymin < (getAABB (base.getD idx default)).ymax :=
  getAABB_wf (by rw [H.hsz idx h]; exact H.hcs)

theorem getAABB_of_shape {c d : LabelCandidate}
    (h : setValid c false = setValid d false) : getAABB c = getAABB d := by
  have h1 : c.anchor = d.anchor := by
    simpa [setValid] using congrArg LabelCandidate.anchor h
  have h2 : c.size = d.size := by
    simpa [setValid] using congrArg LabelCandidate.size h
  have h3 : c.corner = d.corner := by
    simpa [setValid] using congrArg LabelCandidate.corner h
  rw [getAABB, getAABB, h1, h2, h3]

/-- One `tryAccept` step preserves the pass invariant. -/
theorem tryAccept_inv {cs : Rat} {pts : List (Rat × Rat)} {fc : List Nat}
    {base : List LabelCandidate} (H : BaseHyps cs pts fc base) {st : PassSt}
    (inv : PassInv cs pts fc base st) {pid idx : Nat} (hpid : pid = idx / 4)
    (hpidN : pid < pts.length) (hform : idx = 4 * pid + fc.getD pid 0) :
    PassInv cs pts fc base (tryAccept cs pts st pid idx) := by
  have hidxlen : idx < base.length := H.idx_lt hpidN hform
  have hclen : idx < st.cands.length := by rw [inv.cands_len]; exact hidxlen
  have haabb : getAABB (st.cands.getD idx default) = getAABB (base.getD idx default) :=
    getAABB_of_shape (inv.shape idx)
  have hwfall : ∀ x ∈ st.rg, x.xmin ≤ x.xmax ∧ x.ymin ≤ x.ymax := by
    intro x hx
    rw [inv.rg_eq] at hx
    obtain ⟨j, hj, rfl⟩ := List.mem_map.mp hx
    have hjlen : j < base.length :=
      H.idx_lt (inv.form j hj).1 ((inv.form j hj).2.trans (by rw [(inv.form j hj).2]))
    exact ⟨(H.wf_at hjlen).1.le, (H.wf_at hjlen).2.le⟩
  rw [tryAccept]
  by_cases hguard :
      (anyInside cs pts (getAABB (st.cands.getD idx default)) pid ||
        rgOverlapsAny cs st.rg (getAABB (st.cands.getD idx default))) = true
  · rw [if_pos hguard]
    exact inv
  · rw [if_neg hguard]
    rw [Bool.or_eq_true, not_or] at hguard
    obtain ⟨hai, hov⟩ := hguard
    rw [Bool.not_eq_true] at hai hov
    rw [haabb] at hai hov
    set r := getAABB (base.getD idx default) with hrdef
    have hrwf := H.wf_at hidxlen
    -- the accepted index is new
    have hnotmem : idx ∉ st.nextActive := by
      intro hmem
      have hrin : r ∈ st.rg := by
        rw [inv.rg_eq]
        exact List.mem_map.mpr ⟨idx, hmem, rfl⟩
      have hself : overlapsStrict r r = true :=
        overlapsStrict_iff.mpr ⟨hrwf.1, hrwf.1, hrwf.2, hrwf.2⟩
      have : rgOverlapsAny cs st.rg r = true :=
        (rgOverlapsAny_iff H.hcs ⟨hrwf.1.le, hrwf.2.le⟩ hwfall).mpr ⟨r, hrin, hself⟩
      rw [hov] at this
      exact Bool.false_ne_true this
    have hpidnot : pid ∉ st.nextActive.map (· / 4) := by
      intro hmem
      obtain ⟨j, hj, hjpid⟩ := List.mem_map.mp hmem
      have hjform := (inv.form j hj).2
      rw [hjpid] at hjform
      have hji : j = idx := hjform.trans hform.symm
      rw [hji] at hj
      exact hnotmem hj
    have hovall : ∀ x ∈ st.rg, overlapsStrict x r = false := by
      intro x hx
      rw [Bool.eq_false_iff]
      intro hxr
      have : rgOverlapsAny cs st.rg r = true :=
        (rgOverlapsAny_iff H.hcs ⟨hrwf.1.le, hrwf.2.le⟩ hwfall).mpr
          ⟨x, hx, by rw [overlapsStrict_comm]; exact hxr⟩
      rw [hov] at this
      exact Bool.false_ne_true this
    have hcontall : ∀ q : Nat, q < pts.length → q ≠ pid →
        rectContainsPoint r (pts.getD q (0, 0)).1 (pts.getD q (0, 0)).2 = false := by
      intro q hq hqpid
      rw [Bool.eq_false_iff]
      intro hcont
      have : anyInside cs pts r pid = true :=
        (anyInside_iff H.hcs).mpr ⟨q, hq, hqpid, hcont⟩
      rw [hai] at this
      exact Bool.false_ne_true this
    refine ⟨?_, ?_, ?_, ?_, ?_, ?_, ?_, ?_, ?_, ?_, ?_⟩
    -- cands_len
    · simpa using inv.cands_len
    -- shape
    · intro k
      by_cases hk : k = idx
      · subst hk
        have : (st.cands.set k (setValid (st.cands.getD k default) true)).getD k default =
            setValid (st.cands.getD k default) true := by
          simp [List.getD_eq_getElem?_getD, List.getElem?_set_self hclen]
        rw [this]
        exact inv.shape k
      · have : (st.cands.set idx (setValid (st.cands.getD idx default) true)).getD k default =
            st.cands.getD k default := by
          simp [List.getD_eq_getElem?_getD, List.getElem?_set_ne (Ne.symm hk)]
        rw [this]
        exact inv.shape k
    -- valid_iff
    · intro k
      by_cases hk : k = idx
      · subst hk
        have : (st.cands.set k (setValid (st.cands.getD k default) true)).getD k default =
            setValid (st.cands.getD k default) true := by
          simp [List.getD_eq_getElem?_getD, List.getElem?_set_self hclen]
        rw [this]
        simp [valid_setValid]
      · have : (st.cands.set idx (setValid (st.cands.getD idx default) true)).getD k default =
            st.cands.getD k default := by
          simp [List.getD_eq_getElem?_getD, List.getElem?_set_ne (Ne.symm hk)]
        rw [this]
        rw [List.mem_append]
        simp only [List.mem_singleton]
        constructor
        · intro h
          exact Or.inl ((inv.valid_iff k).mp h)
        · rintro (h | h)
          · exact (inv.valid_iff k).mpr h
          · exact absurd h hk
    -- form
    · intro j hj
      rw [List.mem_append, List.mem_singleton] at hj
      rcases hj with hj | rfl
      · exact inv.form j hj
      · rw [← hpid]
        exact ⟨hpidN, hform⟩
    -- rg_eq
    · show st.rg ++ [getAABB (st.cands.getD idx default)] = _
      rw [List.map_append, inv.rg_eq, haabb]
      rfl
    -- placed_eq
    · show st.placed ++ _ = st.rg ++ _
      rw [inv.placed_eq]
    -- own_nodup
    · rw [List.map_append]
      simp only [List.map_cons, List.map_nil]
      rw [List.nodup_append]
      refine ⟨inv.own_nodup, List.nodup_singleton _, ?_⟩
      intro a ha hb
      rw [List.mem_singleton] at hb
      subst hb
      rw [← hpid] at ha
      exact hpidnot ha
    -- flags_len
    · simpa using inv.flags_len
    -- active_flag
    · intro q hq
      rw [List.map_append]
      simp only [List.map_cons, List.map_nil]
      rw [List.mem_append, List.mem_singleton]
      by_cases hqpid : q = pid
      · subst hqpid
        have : ((st.isActiveNow.set q true).getD q false) = true := by
          have hqlen : q < st.isActiveNow.length := by rw [inv.flags_len]; exact hq
          simp [List.getD_eq_getElem?_getD, List.getElem?_set_self hqlen]
        rw [this]
        simp [hpid]
      · have : ((st.isActiveNow.set pid true).getD q false) = st.isActiveNow.getD q false := by
          simp [List.getD_eq_getElem?_getD, List.getElem?_set_ne (Ne.symm hqpid)]
        rw [this]
        rw [inv.active_flag q hq]
        constructor
        · exact Or.inl
        · rintro (h | h)
          · exact h
          · rw [hpid] at hqpid
            exact absurd h hqpid
    -- no_overlap
    · rw [List.pairwise_append]
      refine ⟨inv.no_overlap, List.pairwise_singleton _ _, ?_⟩
      intro a ha b hb
      rw [List.mem_singleton] at hb
      subst hb
      rw [haabb]
      exact hovall a ha
    -- no_occl
    · intro j hj q hq hqj
      rw [List.mem_append, List.mem_singleton] at hj
      rcases hj with hj | rfl
      · exact inv.no_occl j hj q hq hqj
      · rw [← hpid] at hqj
        exact hcontall q hq hqj


/-- The keep-pass fold preserves the invariant. -/
theorem keepFold_inv {cs : Rat} {pts : List (Rat × Rat)} {fc : List Nat}
    {base : List LabelCandidate} (H : BaseHyps cs pts fc base) :
    ∀ (l : List Nat), (∀ idx ∈ l, idx / 4 < pts.length ∧
      idx = 4 * (idx / 4) + fc.getD (idx / 4) 0) →
    ∀ {st : PassSt}, PassInv cs pts fc base st →
    PassInv cs pts fc base
      (l.foldl (fun s idx => tryAccept cs pts s (ownerOf idx 4) idx) st)
  | [], _, _, inv => inv
  | idx :: rest, hl, st, inv => by
    rw [List.foldl_cons]
    have h := hl idx (List.mem_cons_self idx rest)
    have hown : ownerOf idx 4 = idx / 4 := by simp [ownerOf]
    refine keepFold_inv H rest (fun j hj => hl j (List.mem_cons_of_mem idx hj)) ?_
    rw [hown]
    exact tryAccept_inv H inv rfl h.1 h.2

/-- The growth-pass fold preserves the invariant. -/
theorem growthFold_inv {cs : Rat} {pts : List (Rat × Rat)} {fc : List Nat}
    {base : List LabelCandidate} (H : BaseHyps cs pts fc base) :
    ∀ (l : List Nat), (∀ pid ∈ l, pid < pts.length) →
    ∀ {st : PassSt}, PassInv cs pts fc base st →
    PassInv cs pts fc base
      (l.foldl (fun s pid => tryAccept cs pts s pid (pid * 4 + fc.getD pid 0)) st)
  | [], _, _, inv => inv
  | pid :: rest, hl, st, inv => by
    rw [List.foldl_cons]
    have hpidN := hl pid (List.mem_cons_self pid rest)
    have hf4 := H.hfc pid hpidN
    have hdiv : (pid * 4 + fc.getD pid 0) / 4 = pid := by omega
    refine growthFold_inv H rest (fun j hj => hl j (List.mem_cons_of_mem pid hj)) ?_
    exact tryAccept_inv H inv hdiv.symm hpidN (by omega)

/-- The invariant holds at the start of the keep pass. -/
theorem passInv_init {cs : Rat} {pts : List (Rat × Rat)} {fc : List Nat}
    {base : List LabelCandidate}
    (hvalid : ∀ k : Nat, (base.getD k default).valid = false) (u : List Bool) :
    PassInv cs pts fc base ⟨base, [], [], [], List.replicate pts.length false, u⟩ := by
  refine ⟨rfl, fun k => rfl, ?_, ?_, rfl, rfl, List.nodup_nil, ?_, ?_, List.Pairwise.nil, ?_⟩
  · intro k
    show (base.getD k default).valid = true ↔ k ∈ ([] : List Nat)
    rw [hvalid k]
    simp
  · intro idx h
    exact absurd h (List.not_mem_nil idx)
  · simp
  · intro pid hpid
    simp [List.getD_eq_getElem?_getD, List.getElem?_replicate, hpid]
  · intro idx h
    exact absurd h (List.not_mem_nil idx)

/-- Membership is invariant under `insSorted`. -/
theorem mem_insSorted {a : Type} (before : a → a → Bool) (x y : a) :
    ∀ (l : List a), (y ∈ insSorted before x l ↔ y = x ∨ y ∈ l)
  | [] => by simp [insSorted]
  | z :: zs => by
    rw [insSorted]
    by_cases h : before z x = true
    · rw [if_pos h]
      simp only [List.mem_cons, mem_insSorted before x y zs]
      tauto
    · rw [if_neg h]
      simp only [List.mem_cons]

/-- Membership is invariant under `sortByB`. -/
theorem mem_sortByB {a : Type} (before : a → a → Bool) (y : a) :
    ∀ (l : List a), (y ∈ sortByB before l ↔ y ∈ l)
  | [] => Iff.rfl
  | x :: xs => by
    rw [sortByB, List.foldr_cons, mem_insSorted]
    rw [show List.foldr (insSorted before) [] xs = sortByB before xs from rfl]
    rw [mem_sortByB before y xs]
    simp [eq_comm]

/-- Membership is invariant under `dedupAdj`. -/
theorem mem_dedupAdj (y : Nat) :
    ∀ (l : List Nat), (y ∈ dedupAdj l ↔ y ∈ l)
  | [] => Iff.rfl
  | [x] => Iff.rfl
  | x :: z :: rest => by
    rw [dedupAdj]
    by_cases h : x = z
    · rw [if_pos h]
      rw [mem_dedupAdj y (z :: rest)]
      subst h
      simp
    · rw [if_neg h]
      simp only [List.mem_cons]
      rw [show (y ∈ dedupAdj (z :: rest)) ↔ _ from mem_dedupAdj y (z :: rest)]
      simp


/-- The selection loop stays below `4` when all listed corners and the
starting best do. -/
theorem selLoop_lt : ∀ (l : List (Nat × Option Rat)) (b : Nat) (v : Rat),
    (∀ x ∈ l, x.1 < 4) → b < 4 → selLoop l b v < 4
  | [], b, _, _, hb => hb
  | (c, w) :: rest, b, v, hl, hb => by
    have hc : c < 4 := hl (c, w) (List.mem_cons_self _ _)
    match w with
    | none => exact hc
    | some x =>
      show (if v < x then selLoop rest c x else selLoop rest b v) < 4
      by_cases h : v < x
      · rw [if_pos h]
        exact selLoop_lt rest c x (fun y hy => hl y (List.mem_cons_of_mem _ hy)) hc
      · rw [if_neg h]
        exact selLoop_lt rest b v (fun y hy => hl y (List.mem_cons_of_mem _ hy)) hb

theorem chooseFixedCorners_length (pts : List (Rat × Rat)) (s : Rat) :
    (chooseFixedCornersByConflicts pts s).length = pts.length := by
  rw [chooseFixedCornersByConflicts]
  by_cases h : pts.length = 0
  · rw [if_pos h, h]
    rfl
  · rw [if_neg h]
    simp

theorem chooseFixedCorners_lt (pts : List (Rat × Rat)) (s : Rat) :
    ∀ pid : Nat, pid < pts.length →
      (chooseFixedCornersByConflicts pts s).getD pid 0 < 4 := by
  intro pid hpid
  rw [chooseFixedCornersByConflicts]
  have h : ¬pts.length = 0 := by omega
  rw [if_neg h]
  rw [List.getD_eq_getElem?_getD, List.getElem?_map, List.getElem?_range hpid]
  refine selLoop_lt _ 0 _ ?_ (by norm_num)
  intro x hx
  fin_cases hx <;> norm_num

/-- Length of the fixed-corner vector a call works with. -/
theorem gpmFc_length (pts : List (Rat × Rat)) (s : Rat) (st : MonotoneState) :
    (gpmFc pts s st).length = pts.length := by
  rw [gpmFc]
  by_cases h : st.fixedCorner.length = pts.length
  · rw [if_pos h]
    exact h
  · rw [if_neg h]
    exact chooseFixedCorners_length pts s

/-- A `MonotoneState` whose cached corner vector, if it matches the point
count, has entries in range. -/
def WfState (pts : List (Rat × Rat)) (st : MonotoneState) : Prop :=
  st.fixedCorner.length = pts.length →
    ∀ pid : Nat, pid < pts.length → st.fixedCorner.getD pid 0 < 4

theorem gpmFc_lt {pts : List (Rat × Rat)} {s : Rat} {st : MonotoneState}
    (hwf : WfState pts st) :
    ∀ pid : Nat, pid < pts.length → (gpmFc pts s st).getD pid 0 < 4 := by
  intro pid hpid
  rw [gpmFc]
  by_cases h : st.fixedCorner.length = pts.length
  · rw [if_pos h]
    exact hwf h pid hpid
  · rw [if_neg h]
    exact chooseFixedCorners_lt pts s pid hpid

theorem initState_wf (pts : List (Rat × Rat)) : WfState pts initState := by
  intro h pid hpid
  rw [initState] at h
  simp at h
  omega


theorem prologue_length (cands : List LabelCandidate) (pts : List (Rat × Rat))
    (s : Rat) (st : MonotoneState) :
    (gpmPrologue cands pts s st).length = cands.length := by
  rw [gpmPrologue]
  simp

theorem prologue_getElem? (cands : List LabelCandidate) (pts : List (Rat × Rat))
    (s : Rat) (st : MonotoneState) {k : Nat} (hk : k < cands.length) :
    (gpmPrologue cands pts s st)[k]? =
      some (if k / 4 < pts.length then
        { (cands.getD k default) with
            size := s, valid := false,
            corner := (gpmFc pts s st).getD (k / 4) 0 }
      else { (cands.getD k default) with size := s, valid := false }) := by
  rw [gpmPrologue]
  rw [List.getElem?_map]
  rw [List.getElem?_enum]
  rw [List.getElem?_map, List.getElem?_eq_getElem hk]
  rw [List.getD_eq_getElem?_getD, List.getElem?_eq_getElem hk]
  by_cases h : k / 4 < pts.length
  · simp [h]
  · simp [h]

theorem prologue_getD (cands : List LabelCandidate) (pts : List (Rat × Rat))
    (s : Rat) (st : MonotoneState) {k : Nat} (hk : k < cands.length) :
    (gpmPrologue cands pts s st).getD k default =
      (if k / 4 < pts.length then
        { (cands.getD k default) with
            size := s, valid := false,
            corner := (gpmFc pts s st).getD (k / 4) 0 }
      else { (cands.getD k default) with size := s, valid := false }) := by
  rw [List.getD_eq_getElem?_getD, prologue_getElem? cands pts s st hk]
  rfl

theorem prologue_valid (cands : List LabelCandidate) (pts : List (Rat × Rat))
    (s : Rat) (st : MonotoneState) (k : Nat) :
    ((gpmPrologue cands pts s st).getD k default).valid = false := by
  by_cases hk : k < cands.length
  · rw [prologue_getD cands pts s st hk]
    by_cases h : k / 4 < pts.length
    · rw [if_pos h]
    · rw [if_neg h]
  · rw [List.getD_eq_getElem?_getD, List.getElem?_eq_none]
    · rfl
    · rw [prologue_length]
      omega

theorem prologue_size (cands : List LabelCandidate) (pts : List (Rat × Rat))
    (s : Rat) (st : MonotoneState) {k : Nat} (hk : k < cands.length) :
    ((gpmPrologue cands pts s st).getD k default).size = s := by
  rw [prologue_getD cands pts s st hk]
  by_cases h : k / 4 < pts.length
  · rw [if_pos h]
  · rw [if_neg h]

theorem prologue_anchor (cands : List LabelCandidate) (pts : List (Rat × Rat))
    (s : Rat) (st : MonotoneState) {k : Nat} (hk : k < cands.length) :
    ((gpmPrologue cands pts s st).getD k default).anchor =
      (cands.getD k default).anchor := by
  rw [prologue_getD cands pts s st hk]
  by_cases h : k / 4 < pts.length
  · rw [if_pos h]
  · rw [if_neg h]

theorem keepList_form {pts : List (Rat × Rat)} {s : Rat} {st : MonotoneState}
    (hwf : WfState pts st) :
    ∀ x ∈ gpmKeepList pts s st, x / 4 < pts.length ∧
      x = 4 * (x / 4) + (gpmFc pts s st).getD (x / 4) 0 := by
  intro x hx
  rw [gpmKeepList, mem_dedupAdj, mem_sortByB, List.mem_filterMap] at hx
  obtain ⟨idx, _, hf⟩ := hx
  by_cases h : ownerOf idx 4 < pts.length
  · rw [if_pos h] at hf
    have hx4 := @gpmFc_lt pts s st hwf (ownerOf idx 4) h
    have hxeq : x = ownerOf idx 4 * 4 + (gpmFc pts s st).getD (ownerOf idx 4) 0 :=
      (Option.some_inj.mp hf).symm
    have hdiv : x / 4 = ownerOf idx 4 := by omega
    rw [hdiv, hxeq]
    exact ⟨h, by omega⟩
  · rw [if_neg h] at hf
    exact absurd hf (Option.some_ne_none x).symm

theorem gpmOrder_lt (pts : List (Rat × Rat)) (s : Rat) (st1 : PassSt) :
    ∀ pid ∈ gpmOrder pts s st1, pid < pts.length := by
  intro pid hp
  rw [gpmOrder, mem_sortByB, List.mem_filter] at hp
  exact List.mem_range.mp hp.1

/-- Master invariant: the final pass state of `greedyPlaceMonotone` satisfies
`PassInv` for the prologue candidates and the corner vector in use. -/
theorem gpm_passInv (cands : List LabelCandidate) (pts : List (Rat × Rat))
    (s : Rat) (st : MonotoneState) (hlen : cands.length = 4 * pts.length)
    (hcs : 0 < s) (hwf : WfState pts st) :
    PassInv s pts (gpmFc pts s st) (gpmPrologue cands pts s st)
      (gpmFinalSt cands pts s st) := by
  have H : BaseHyps s pts (gpmFc pts s st) (gpmPrologue cands pts s st) :=
    { hcs := hcs
      hlen := by rw [prologue_length, hlen]
      hsz := by
        intro k hk
        rw [prologue_length] at hk
        exact prologue_size cands pts s st hk
      hfc := gpmFc_lt hwf }
  have hinit := @passInv_init s pts (gpmFc pts s st) (gpmPrologue cands pts s st)
    (prologue_valid cands pts s st)
    (if st.usedOnce.length = pts.length then st.usedOnce
      else List.replicate pts.length false)
  have hkeep : PassInv s pts (gpmFc pts s st) (gpmPrologue cands pts s st)
      (gpmAfterKeep cands pts s st) := by
    rw [gpmAfterKeep]
    exact keepFold_inv H _ (keepList_form hwf) hinit
  rw [gpmFinalSt]
  by_cases hzoom : (!decide (0 ≤ st.lastBase) || decide (s < st.lastBase)) = true
  · rw [if_pos hzoom]
    exact growthFold_inv H _ (gpmOrder_lt pts s _) hkeep
  · rw [if_neg hzoom]
    exact hkeep

/-- Unfolding of `greedyPlaceMonotone` on nonempty input. -/
theorem gpm_eq (cands : List LabelCandidate) (pts : List (Rat × Rat)) (s : Rat)
    (st : MonotoneState) (h : ¬(pts.length = 0 ∨ cands.isEmpty = true)) :
    greedyPlaceMonotone cands pts s st =
      { cands := (gpmFinalSt cands pts s st).cands,
        placed := (gpmFinalSt cands pts s st).placed,
        state :=
          { lastBase := s, active := (gpmFinalSt cands pts s st).nextActive,
            fixedCorner := gpmFc pts s st,
            usedOnce := (gpmFinalSt cands pts s st).usedOnce } } := by
  rw [greedyPlaceMonotone, if_neg h]

/-! ## Consequences of the pass invariant -/


/-- In the empty-input case the reset leaves every candidate invalid. -/
theorem gpm_empty_valid (cands : List LabelCandidate) (pts : List (Rat × Rat))
    (s : Rat) (st : MonotoneState)
    (h : pts.length = 0 ∨ cands.isEmpty = true) (k : Nat) :
    ((greedyPlaceMonotone cands pts s st).cands.getD k default).valid = false := by
  rw [greedyPlaceMonotone, if_pos h]
  show ((cands.map fun c =>
    ({ c with size := s, valid := false } : LabelCandidate)).getD k default).valid = false
  by_cases hk : k < cands.length
  · rw [List.getD_eq_getElem?_getD, List.getElem?_map, List.getElem?_eq_getElem hk]
    rfl
  · rw [List.getD_eq_getElem?_getD, List.getElem?_eq_none (by simpa using hk)]
    rfl

/-- A list with no duplicates whose members are all equal has length at most 1. -/
theorem nodup_all_eq_length_le_one {l : List Nat} {a : Nat} (hnd : l.Nodup)
    (hall : ∀ x ∈ l, x = a) : l.length ≤ 1 := by
  rcases l with _ | ⟨x, _ | ⟨y, rest⟩⟩
  · simp
  · simp
  · exfalso
    have hx := hall x (by simp)
    have hy := hall y (by simp)
    rw [List.nodup_cons] at hnd
    exact hnd.1 (by rw [hx.trans hy.symm]; exact List.mem_cons_self y rest)

/-- C1: after any single call to `greedyPlaceMonotone`, the rectangles of any
two distinct `valid = true` candidates do not strictly overlap (shared edges
permitted, open-interior overlap forbidden). -/
theorem c1_general (cands : List LabelCandidate) (pts : List (Rat × Rat))
    (s : Rat) (st : MonotoneState) (hlen : cands.length = 4 * pts.length)
    (hcs : 0 < s) (hwf : WfState pts st) (a b : Nat) (hab : a ≠ b)
    (ha : ((greedyPlaceMonotone cands pts s st).cands.getD a default).valid = true)
    (hb : ((greedyPlaceMonotone cands pts s st).cands.getD b default).valid = true) :
    overlapsStrict
      (getAABB ((greedyPlaceMonotone cands pts s st).cands.getD a default))
      (getAABB ((greedyPlaceMonotone cands pts s st).cands.getD b default)) = false := by
  by_cases h : pts.length = 0 ∨ cands.isEmpty = true
  · rw [gpm_empty_valid cands pts s st h a] at ha
    exact absurd ha (by simp)
  · have inv := gpm_passInv cands pts s st hlen hcs hwf
    rw [gpm_eq cands pts s st h] at ha hb ⊢
    simp only at ha hb ⊢
    have hamem := (inv.valid_iff a).mp ha
    have hbmem := (inv.valid_iff b).mp hb
    have haabb : ∀ k : Nat, getAABB ((gpmFinalSt cands pts s st).cands.getD k default) =
        getAABB ((gpmPrologue cands pts s st).getD k default) :=
      fun k => getAABB_of_shape (inv.shape k)
    rw [haabb a, haabb b]
    have hpw : (gpmFinalSt cands pts s st).nextActive.Pairwise fun i j =>
        overlapsStrict (getAABB ((gpmPrologue cands pts s st).getD i default))
          (getAABB ((gpmPrologue cands pts s st).getD j default)) = false := by
      have := inv.no_overlap
      rw [inv.rg_eq, List.pairwise_map] at this
      exact this
    have hsym : Symmetric fun i j =>
        overlapsStrict (getAABB ((gpmPrologue cands pts s st).getD i default))
          (getAABB ((gpmPrologue cands pts s st).getD j default)) = false := by
      intro i j hij
      rw [overlapsStrict_comm]
      exact hij
    exact hpw.forall hsym hamem hbmem hab


/-- C2: after any single call to `greedyPlaceMonotone`, a `valid = true`
candidate keeps its own anchor, and its rectangle strictly contains (open
interior) no anchor of the input point list other than its own. -/
theorem c2_general (cands : List LabelCandidate) (pts : List (Rat × Rat))
    (s : Rat) (st : MonotoneState) (hlen : cands.length = 4 * pts.length)
    (hcs : 0 < s) (hwf : WfState pts st)
    (hanch : ∀ k : Nat, k < cands.length →
      (cands.getD k default).anchor = pts.getD (k / 4) (0, 0)) (k : Nat)
    (hk : ((greedyPlaceMonotone cands pts s st).cands.getD k default).valid = true) :
    ((greedyPlaceMonotone cands pts s st).cands.getD k default).anchor =
      pts.getD (k / 4) (0, 0) ∧
    ∀ q : Nat, q < pts.length → q ≠ k / 4 →
      rectContainsPoint
        (getAABB ((greedyPlaceMonotone cands pts s st).cands.getD k default))
        (pts.getD q (0, 0)).1 (pts.getD q (0, 0)).2 = false := by
  by_cases h : pts.length = 0 ∨ cands.isEmpty = true
  · rw [gpm_empty_valid cands pts s st h k] at hk
    exact absurd hk (by simp)
  · have inv := gpm_passInv cands pts s st hlen hcs hwf
    rw [gpm_eq cands pts s st h] at hk ⊢
    simp only at hk ⊢
    have hkmem := (inv.valid_iff k).mp hk
    have hklen : k < cands.length := by
      have hf := inv.form k hkmem
      have h4 := gpmFc_lt (s := s) hwf (k / 4) hf.1
      rw [hlen]
      omega
    constructor
    · have hsh : ((gpmFinalSt cands pts s st).cands.getD k default).anchor =
          ((gpmPrologue cands pts s st).getD k default).anchor := by
        have := congrArg LabelCandidate.anchor (inv.shape k)
        simpa [setValid] using this
      rw [hsh, prologue_anchor cands pts s st hklen]
      exact hanch k hklen
    · intro q hq hqk
      have haabb : getAABB ((gpmFinalSt cands pts s st).cands.getD k default) =
          getAABB ((gpmPrologue cands pts s st).getD k default) :=
        getAABB_of_shape (inv.shape k)
      rw [haabb]
      exact inv.no_occl k hkmem q hq hqk

/-- C3: after any single call to `greedyPlaceMonotone`, among the four
candidates `4*pid .. 4*pid+3` of any point at most one is `valid = true`. -/
theorem c3_general (cands : List LabelCandidate) (pts : List (Rat × Rat))
    (s : Rat) (st : MonotoneState) (hlen : cands.length = 4 * pts.length)
    (hcs : 0 < s) (hwf : WfState pts st) (pid : Nat) :
    ((List.range 4).filter fun j =>
      ((greedyPlaceMonotone cands pts s st).cands.getD (4 * pid + j) default).valid).length ≤ 1 := by
  by_cases h : pts.length = 0 ∨ cands.isEmpty = true
  · have : ((List.range 4).filter fun j =>
        ((greedyPlaceMonotone cands pts s st).cands.getD (4 * pid + j) default).valid) = [] := by
      rw [List.filter_eq_nil_iff]
      intro j _
      rw [gpm_empty_valid cands pts s st h (4 * pid + j)]
      simp
    rw [this]
    simp
  · have inv := gpm_passInv cands pts s st hlen hcs hwf
    refine nodup_all_eq_length_le_one (a := (gpmFc pts s st).getD pid 0)
      (List.Nodup.filter _ (List.nodup_range 4)) ?_
    intro j hj
    rw [List.mem_filter, List.mem_range] at hj
    obtain ⟨hj4, hjv⟩ := hj
    rw [gpm_eq cands pts s st h] at hjv
    simp only at hjv
    have hmem := (inv.valid_iff (4 * pid + j)).mp hjv
    have hform := (inv.form (4 * pid + j) hmem).2
    have hdiv : (4 * pid + j) / 4 = pid := by omega
    rw [hdiv] at hform
    omega

/-- Filtering a list is the same as filtering the positions. -/
theorem length_filter_eq_range {α : Type} [Inhabited α] (p : α → Bool) :
    ∀ l : List α, (l.filter p).length =
      ((List.range l.length).filter fun k => p (l.getD k default)).length
  | [] => rfl
  | c :: t => by
    rw [List.filter_cons, List.length_cons, List.range_succ_eq_map,
      List.filter_cons]
    have hzero : (c :: t).getD 0 default = c := rfl
    rw [hzero]
    have hmap : ((List.range t.length).map Nat.succ).filter
        (fun k => p ((c :: t).getD k default)) =
        ((List.range t.length).filter fun k => p (t.getD k default)).map Nat.succ := by
      rw [List.filter_map]
      rfl
    by_cases hc : p c = true
    · rw [if_pos hc, if_pos hc]
      simp only [List.length_cons, hmap, List.length_map]
      rw [length_filter_eq_range p t]
    · rw [if_neg (by simpa using hc), if_neg (by simpa using hc)]
      simp only [hmap, List.length_map]
      rw [length_filter_eq_range p t]

/-- Number of valid candidates equals the size of the active index set. -/
theorem count_valid {l : List LabelCandidate} {act : List Nat} (hnd : act.Nodup)
    (hsub : ∀ k ∈ act, k < l.length)
    (hiff : ∀ k : Nat, ((l.getD k default).valid = true ↔ k ∈ act)) :
    (l.filter fun c => c.valid).length = act.length := by
  rw [length_filter_eq_range]
  have hcongr : ((List.range l.length).filter fun k => (l.getD k default).valid) =
      ((List.range l.length).filter fun k => decide (k ∈ act)) := by
    apply List.filter_congr
    intro k _
    by_cases hm : k ∈ act
    · rw [(hiff k).mpr hm, decide_eq_true hm]
    · rw [decide_eq_false hm, Bool.eq_false_iff]
      intro hv
      exact hm ((hiff k).mp hv)
  rw [hcongr]
  have hperm : List.Perm ((List.range l.length).filter fun k => decide (k ∈ act)) act := by
    rw [List.perm_ext_iff_of_nodup (List.Nodup.filter _ (List.nodup_range _)) hnd]
    intro k
    rw [List.mem_filter, List.mem_range]
    constructor
    · rintro ⟨_, hk⟩
      simpa using hk
    · intro hk
      exact ⟨hsub k hk, by simpa using hk⟩
  exact hperm.length_eq


/-- C10: on nonempty input, the returned `placed` vector is exactly
`getAABB` of the candidates listed by the updated `state.active`, in order;
hence the number of placed rectangles equals the number of `valid = true`
candidates and equals the size of the active set. -/
theorem c10_general (cands : List LabelCandidate) (pts : List (Rat × Rat))
    (s : Rat) (st : MonotoneState)
    (h : ¬(pts.length = 0 ∨ cands.isEmpty = true))
    (hlen : cands.length = 4 * pts.length) (hcs : 0 < s) (hwf : WfState pts st) :
    (greedyPlaceMonotone cands pts s st).placed =
      (greedyPlaceMonotone cands pts s st).state.active.map
        (fun k => getAABB ((greedyPlaceMonotone cands pts s st).cands.getD k default)) ∧
    ((greedyPlaceMonotone cands pts s st).cands.filter fun c => c.valid).length =
      (greedyPlaceMonotone cands pts s st).state.active.length ∧
    (greedyPlaceMonotone cands pts s st).placed.length =
      (greedyPlaceMonotone cands pts s st).state.active.length := by
  have inv := gpm_passInv cands pts s st hlen hcs hwf
  rw [gpm_eq cands pts s st h]
  simp only
  have hnd : (gpmFinalSt cands pts s st).nextActive.Nodup :=
    List.Nodup.of_map _ inv.own_nodup
  have hsub : ∀ k ∈ (gpmFinalSt cands pts s st).nextActive,
      k < (gpmFinalSt cands pts s st).cands.length := by
    intro k hk
    have hf := inv.form k hk
    have h4 := gpmFc_lt (s := s) hwf (k / 4) hf.1
    rw [inv.cands_len, prologue_length, hlen]
    omega
  have hmap : (gpmFinalSt cands pts s st).placed =
      (gpmFinalSt cands pts s st).nextActive.map
        (fun k => getAABB ((gpmFinalSt cands pts s st).cands.getD k default)) := by
    rw [inv.placed_eq, inv.rg_eq]
    apply List.map_congr_left
    intro k _
    exact (getAABB_of_shape (inv.shape k)).symm
  refine ⟨hmap, ?_, ?_⟩
  · exact count_valid hnd hsub inv.valid_iff
  · rw [hmap, List.length_map]

/-- The accept step appends at most its own candidate index. -/
theorem tryAccept_nextActive_mem (cs : Rat) (pts : List (Rat × Rat))
    (st : PassSt) (a b : Nat) {x : Nat}
    (hx : x ∈ (tryAccept cs pts st a b).nextActive) :
    x ∈ st.nextActive ∨ x = b := by
  rw [tryAccept] at hx
  by_cases hg : (anyInside cs pts (getAABB (st.cands.getD b default)) a ||
      rgOverlapsAny cs st.rg (getAABB (st.cands.getD b default))) = true
  · rw [if_pos hg] at hx
    exact Or.inl hx
  · rw [if_neg hg] at hx
    simp only [List.mem_append, List.mem_singleton] at hx
    exact hx

/-- Indices active after a fold of accept steps either were active before or
are the candidate index of some processed element. -/
theorem foldl_tryAccept_sub (cs : Rat) (pts : List (Rat × Rat))
    (p q : Nat → Nat) :
    ∀ (l : List Nat) (st : PassSt) (x : Nat),
      x ∈ (l.foldl (fun s i => tryAccept cs pts s (p i) (q i)) st).nextActive →
      x ∈ st.nextActive ∨ ∃ i ∈ l, x = q i
  | [], _, _, hx => Or.inl hx
  | i :: rest, st, x, hx => by
    rw [List.foldl_cons] at hx
    rcases foldl_tryAccept_sub cs pts p q rest _ x hx with h | ⟨j, hj, rfl⟩
    · rcases tryAccept_nextActive_mem cs pts st (p i) (q i) h with h2 | h2
      · exact Or.inl h2
      · exact Or.inr ⟨i, List.mem_cons_self i rest, h2⟩
    · exact Or.inr ⟨j, List.mem_cons_of_mem i hj, rfl⟩

/-- C6: when the state is already initialised (`lastBase ≥ 0`) and the new
size is not smaller, no growth pass runs: every point owning a `valid = true`
candidate after the call already owned an active candidate before it. -/
theorem c6_general (cands : List LabelCandidate) (pts : List (Rat × Rat))
    (s : Rat) (st : MonotoneState) (hlen : cands.length = 4 * pts.length)
    (hcs : 0 < s) (hwf : WfState pts st)
    (hprev : 0 ≤ st.lastBase) (hshrink : st.lastBase ≤ s) (k : Nat)
    (hvalid : ((greedyPlaceMonotone cands pts s st).cands.getD k default).valid = true) :
    ∃ idx ∈ st.active, idx / 4 = k / 4 := by
  by_cases h : pts.length = 0 ∨ cands.isEmpty = true
  · rw [gpm_empty_valid cands pts s st h k] at hvalid
    exact absurd hvalid (by simp)
  · have inv := gpm_passInv cands pts s st hlen hcs hwf
    rw [gpm_eq cands pts s st h] at hvalid
    simp only at hvalid
    have hkmem : k ∈ (gpmFinalSt cands pts s st).nextActive :=
      (inv.valid_iff k).mp hvalid
    -- no growth pass: the zoom test is false
    have hz : (!decide (0 ≤ st.lastBase) || decide (s < st.lastBase)) = false := by
      rw [decide_eq_true hprev, decide_eq_false (not_lt.mpr hshrink)]
      rfl
    have hfin : gpmFinalSt cands pts s st = gpmAfterKeep cands pts s st := by
      rw [gpmFinalSt, hz]
      rfl
    rw [hfin] at hkmem
    rw [gpmAfterKeep] at hkmem
    rcases foldl_tryAccept_sub s pts (fun i => ownerOf i 4) (fun i => i) _ _ k hkmem with
      hk0 | ⟨i, hi, hik⟩
    · exact absurd hk0 (List.not_mem_nil k)
    · rw [gpmKeepList, mem_dedupAdj, mem_sortByB, List.mem_filterMap] at hi
      obtain ⟨idx, hidx, hf⟩ := hi
      by_cases hp : ownerOf idx 4 < pts.length
      · rw [if_pos hp] at hf
        have h4 := @gpmFc_lt pts s st hwf (ownerOf idx 4) hp
        have hieq : k = ownerOf idx 4 * 4 + (gpmFc pts s st).getD (ownerOf idx 4) 0 := by
          rw [hik]
          exact (Option.some_inj.mp hf).symm
        refine ⟨idx, hidx, ?_⟩
        rw [show ownerOf idx 4 = idx / 4 from by simp [ownerOf]] at hieq h4
        omega
      · rw [if_neg hp] at hf
        exact absurd hf (Option.some_ne_none i).symm

/-! ## Zoom-out monotonicity of the keep pass -/


/-- `r` lies inside `r2` (componentwise interval inclusion). -/
def RectSub (r r2 : Rect) : Prop :=
  r2.xmin ≤ r.xmin ∧ r.xmax ≤ r2.xmax ∧ r2.ymin ≤ r.ymin ∧ r.ymax ≤ r2.ymax

/-- Shrinking a candidate (same anchor and corner, smaller size) shrinks its
rectangle. -/
theorem getAABB_nested {c d : LabelCandidate} (hanchor : c.anchor = d.anchor)
    (hcorner : c.corner = d.corner) (hle : c.size ≤ d.size) :
    RectSub (getAABB c) (getAABB d) := by
  obtain ⟨hx, hy⟩ := getAABB_spread c
  obtain ⟨hx2, hy2⟩ := getAABB_spread d
  rw [getAABB, getAABB] at *
  simp only [qsub_eq, qadd_eq] at *
  rw [hanchor, hcorner] at *
  refine ⟨?_, ?_, ?_, ?_⟩
  · by_cases h : d.corner = 1 ∨ d.corner = 2
    · simp only [if_pos h]
      exact le_rfl
    · simp only [if_neg h]
      linarith
  · by_cases h : d.corner = 1 ∨ d.corner = 2
    · simp only [if_pos h]
      linarith
    · simp only [if_neg h]
      linarith
  · by_cases h : 2 ≤ d.corner
    · simp only [if_pos h]
      exact le_rfl
    · simp only [if_neg h]
      linarith
  · by_cases h : 2 ≤ d.corner
    · simp only [if_pos h]
      linarith
    · simp only [if_neg h]
      linarith

/-- Non-overlap is preserved under shrinking both rectangles. -/
theorem overlapsStrict_anti {a b a2 b2 : Rect} (ha : RectSub a2 a)
    (hb : RectSub b2 b) (h : overlapsStrict a b = false) :
    overlapsStrict a2 b2 = false := by
  rw [Bool.eq_false_iff] at h ⊢
  intro h2
  apply h
  have := overlapsStrict_iff.mp h2
  obtain ⟨ha1, ha2, ha3, ha4⟩ := ha
  obtain ⟨hb1, hb2, hb3, hb4⟩ := hb
  exact overlapsStrict_iff.mpr ⟨by linarith [this.1], by linarith [this.2.1],
    by linarith [this.2.2.1], by linarith [this.2.2.2]⟩

/-- Non-containment is preserved under shrinking the rectangle. -/
theorem rectContainsPoint_anti {r r2 : Rect} {x y : Rat} (h : RectSub r2 r)
    (hc : rectContainsPoint r x y = false) : rectContainsPoint r2 x y = false := by
  rw [Bool.eq_false_iff] at hc ⊢
  intro h2
  apply hc
  have := rectContainsPoint_iff.mp h2
  obtain ⟨h1, h2b, h3, h4⟩ := h
  exact rectContainsPoint_iff.mpr ⟨by linarith [this.1], by linarith [this.2.1],
    by linarith [this.2.2.1], by linarith [this.2.2.2]⟩

/-- `tryAccept` only appends to the active set. -/
theorem tryAccept_nextActive_mono (cs : Rat) (pts : List (Rat × Rat))
    (st : PassSt) (a b : Nat) {x : Nat} (hx : x ∈ st.nextActive) :
    x ∈ (tryAccept cs pts st a b).nextActive := by
  rw [tryAccept]
  by_cases hg : (anyInside cs pts (getAABB (st.cands.getD b default)) a ||
      rgOverlapsAny cs st.rg (getAABB (st.cands.getD b default))) = true
  · rw [if_pos hg]
    exact hx
  · rw [if_neg hg]
    exact List.mem_append_left _ hx

/-- Folds of accept steps only append to the active set. -/
theorem foldl_tryAccept_mono (cs : Rat) (pts : List (Rat × Rat))
    (p q : Nat → Nat) :
    ∀ (l : List Nat) (st : PassSt) {x : Nat}, x ∈ st.nextActive →
      x ∈ (l.foldl (fun s i => tryAccept cs pts s (p i) (q i)) st).nextActive
  | [], _, _, hx => hx
  | i :: rest, st, x, hx => by
    rw [List.foldl_cons]
    exact foldl_tryAccept_mono cs pts p q rest _
      (tryAccept_nextActive_mono cs pts st (p i) (q i) hx)

/-- Keep-pass completeness: when every index of `good` has a rectangle that
contains no foreign point and overlaps no other `good` rectangle, a keep fold
whose processed list and current active set lie in `good` accepts every
processed index. -/
theorem keepFold_all {cs : Rat} {pts : List (Rat × Rat)} {fc : List Nat}
    {base : List LabelCandidate} (H : BaseHyps cs pts fc base)
    {good : List Nat}
    (hgform : ∀ x ∈ good, x / 4 < pts.length ∧ x = 4 * (x / 4) + fc.getD (x / 4) 0)
    (hpair : ∀ x ∈ good, ∀ y ∈ good, x ≠ y →
      overlapsStrict (getAABB (base.getD x default)) (getAABB (base.getD y default)) = false)
    (hocc : ∀ x ∈ good, ∀ q : Nat, q < pts.length → q ≠ x / 4 →
      rectContainsPoint (getAABB (base.getD x default)) (pts.getD q (0, 0)).1
        (pts.getD q (0, 0)).2 = false) :
    ∀ (todo : List Nat) (st : PassSt), PassInv cs pts fc base st →
      (∀ x ∈ todo, x ∈ good) → (∀ x ∈ st.nextActive, x ∈ good) →
      ∀ z ∈ todo,
        z ∈ (todo.foldl (fun s idx => tryAccept cs pts s (ownerOf idx 4) idx)
          st).nextActive
  | [], _, _, _, _, z, hz => absurd hz (List.not_mem_nil z)
  | x :: rest, st, inv, htodo, hsub, z, hz => by
    rw [List.foldl_cons]
    have hxg := htodo x (List.mem_cons_self x rest)
    have hxform := hgform x hxg
    have inv2 : PassInv cs pts fc base (tryAccept cs pts st (ownerOf x 4) x) := by
      rw [show ownerOf x 4 = x / 4 from by simp [ownerOf]]
      exact tryAccept_inv H inv rfl hxform.1 hxform.2
    have hsub2 : ∀ y ∈ (tryAccept cs pts st (ownerOf x 4) x).nextActive, y ∈ good := by
      intro y hy
      rcases tryAccept_nextActive_mem cs pts st (ownerOf x 4) x hy with h | rfl
      · exact hsub y h
      · exact hxg
    have htodo2 : ∀ y ∈ rest, y ∈ good := fun y hy => htodo y (List.mem_cons_of_mem x hy)
    rcases List.mem_cons.mp hz with rfl | hzrest
    · -- the head is accepted here (or was already active) and stays
      have hzin : z ∈ (tryAccept cs pts st (ownerOf z 4) z).nextActive := by
        by_cases hzact : z ∈ st.nextActive
        · exact tryAccept_nextActive_mono cs pts st (ownerOf z 4) z hzact
        · -- the guard is false, so the step accepts z
          have hzlen : z < base.length := H.idx_lt hxform.1 (by rw [← hxform.2])
          have haabb : getAABB (st.cands.getD z default) =
              getAABB (base.getD z default) := getAABB_of_shape (inv.shape z)
          have hwfz := H.wf_at hzlen
          have hwfall : ∀ w ∈ st.rg, w.xmin ≤ w.xmax ∧ w.ymin ≤ w.ymax := by
            intro w hw
            rw [inv.rg_eq] at hw
            obtain ⟨j, hj, rfl⟩ := List.mem_map.mp hw
            have hjlen : j < base.length :=
              H.idx_lt (inv.form j hj).1 (inv.form j hj).2
            exact ⟨(H.wf_at hjlen).1.le, (H.wf_at hjlen).2.le⟩
          have hai : anyInside cs pts (getAABB (base.getD z default)) (ownerOf z 4) = false := by
            rw [Bool.eq_false_iff]
            intro htrue
            obtain ⟨q, hq, hqne, hqc⟩ := (anyInside_iff H.hcs).mp htrue
            rw [show ownerOf z 4 = z / 4 from by simp [ownerOf]] at hqne
            rw [hocc z hxg q hq hqne] at hqc
            exact Bool.false_ne_true hqc
          have hov : rgOverlapsAny cs st.rg (getAABB (base.getD z default)) = false := by
            rw [Bool.eq_false_iff]
            intro htrue
            obtain ⟨w, hw, hwov⟩ :=
              (rgOverlapsAny_iff H.hcs ⟨hwfz.1.le, hwfz.2.le⟩ hwfall).mp htrue
            rw [inv.rg_eq] at hw
            obtain ⟨j, hj, rfl⟩ := List.mem_map.mp hw
            have hjz : z ≠ j := by
              intro hzj
              rw [← hzj] at hj
              exact hzact hj
            rw [hpair z hxg j (hsub j hj) hjz] at hwov
            exact Bool.false_ne_true hwov
          rw [tryAccept, haabb, hai, hov]
          simp only [Bool.or_self, if_neg (Bool.false_ne_true)]
          exact List.mem_append_right _ (List.mem_singleton.mpr rfl)
      exact foldl_tryAccept_mono cs pts (fun i => ownerOf i 4) (fun i => i) rest _ hzin
    · exact keepFold_all H hgform hpair hocc rest _ inv2 htodo2 hsub2 z hzrest


theorem prologue_corner (cands : List LabelCandidate) (pts : List (Rat × Rat))
    (s : Rat) (st : MonotoneState) {k : Nat} (hk : k < cands.length)
    (hk4 : k / 4 < pts.length) :
    ((gpmPrologue cands pts s st).getD k default).corner =
      (gpmFc pts s st).getD (k / 4) 0 := by
  rw [prologue_getD cands pts s st hk, if_pos hk4]

theorem tryAccept_cands_length (cs : Rat) (pts : List (Rat × Rat))
    (st : PassSt) (a b : Nat) :
    (tryAccept cs pts st a b).cands.length = st.cands.length := by
  rw [tryAccept]
  by_cases hg : (anyInside cs pts (getAABB (st.cands.getD b default)) a ||
      rgOverlapsAny cs st.rg (getAABB (st.cands.getD b default))) = true
  · rw [if_pos hg]
  · rw [if_neg hg]
    exact List.length_set st.cands b _

theorem foldl_tryAccept_cands_length (cs : Rat) (pts : List (Rat × Rat))
    (p q : Nat → Nat) :
    ∀ (l : List Nat) (st : PassSt),
      (l.foldl (fun s i => tryAccept cs pts s (p i) (q i)) st).cands.length =
        st.cands.length
  | [], _ => rfl
  | i :: rest, st => by
    rw [List.foldl_cons, foldl_tryAccept_cands_length cs pts p q rest _,
      tryAccept_cands_length]

theorem gpmFinalSt_cands_length (cands : List LabelCandidate)
    (pts : List (Rat × Rat)) (s : Rat) (st : MonotoneState) :
    (gpmFinalSt cands pts s st).cands.length = cands.length := by
  have hkeep : (gpmAfterKeep cands pts s st).cands.length = cands.length := by
    rw [gpmAfterKeep, foldl_tryAccept_cands_length s pts (fun i => ownerOf i 4) (fun i => i)]
    exact prologue_length cands pts s st
  rw [gpmFinalSt]
  by_cases hz : (!decide (0 ≤ st.lastBase) || decide (s < st.lastBase)) = true
  · rw [if_pos hz]
    rw [foldl_tryAccept_cands_length s pts (fun i => i)
      (fun i => i * 4 + (gpmFc pts s st).getD i 0)]
    exact hkeep
  · rw [if_neg hz]
    exact hkeep

theorem gpm_cands_length (cands : List LabelCandidate) (pts : List (Rat × Rat))
    (s : Rat) (st : MonotoneState) :
    (greedyPlaceMonotone cands pts s st).cands.length = cands.length := by
  rw [greedyPlaceMonotone]
  by_cases h : pts.length = 0 ∨ cands.isEmpty = true
  · rw [if_pos h]
    exact List.length_map cands _
  · rw [if_neg h]
    exact gpmFinalSt_cands_length cands pts s st

/-- The state published by a call is well-formed. -/
theorem gpm_state_wf (cands : List LabelCandidate) (pts : List (Rat × Rat))
    (s : Rat) (st : MonotoneState) (hwf : WfState pts st) :
    WfState pts (greedyPlaceMonotone cands pts s st).state := by
  rw [greedyPlaceMonotone]
  by_cases h : pts.length = 0 ∨ cands.isEmpty = true
  · rw [if_pos h]
    intro hlen pid hpid
    show (([] : List Nat).getD pid 0) < 4
    simp
  · rw [if_neg h]
    intro _ pid hpid
    exact @gpmFc_lt pts s st hwf pid hpid


theorem afterKeep_sub_final (cands : List LabelCandidate) (pts : List (Rat × Rat))
    (s : Rat) (st : MonotoneState) {x : Nat}
    (hx : x ∈ (gpmAfterKeep cands pts s st).nextActive) :
    x ∈ (gpmFinalSt cands pts s st).nextActive := by
  rw [gpmFinalSt]
  by_cases hz : (!decide (0 ≤ st.lastBase) || decide (s < st.lastBase)) = true
  · rw [if_pos hz]
    exact foldl_tryAccept_mono s pts (fun i => i)
      (fun i => i * 4 + (gpmFc pts s st).getD i 0) _ _ hx
  · rw [if_neg hz]
    exact hx

theorem mem_keepList_of_active {pts : List (Rat × Rat)} {s : Rat}
    {st : MonotoneState} {idx : Nat} (hidx : idx ∈ st.active)
    (hpid : idx / 4 < pts.length)
    (hform : idx = 4 * (idx / 4) + (gpmFc pts s st).getD (idx / 4) 0) :
    idx ∈ gpmKeepList pts s st := by
  rw [gpmKeepList, mem_dedupAdj, mem_sortByB, List.mem_filterMap]
  refine ⟨idx, hidx, ?_⟩
  rw [show ownerOf idx 4 = idx / 4 from by simp [ownerOf]]
  rw [if_pos hpid]
  rw [Option.some_inj]
  omega

/-- C5 (amended): scenario `size 1.0` then `size 0.5` from a fresh state.
Since `0.5 < 1.0` sets `zoomingOut = true`, the growth pass RUNS on the
second call, so the active set can only grow: `A := state.active` after the
first call is a SUBSET of the active set after the second call (a superset
of `A`, not a subset as claimed). -/
theorem c5_superset (cands : List LabelCandidate) (pts : List (Rat × Rat))
    (hN : pts.length ≠ 0) (hlen : cands.length = 4 * pts.length) :
    ∀ idx ∈ (greedyPlaceMonotone cands pts 1 initState).state.active,
      idx ∈ (greedyPlaceMonotone (greedyPlaceMonotone cands pts 1 initState).cands
        pts (mkq 1 2) (greedyPlaceMonotone cands pts 1 initState).state).state.active := by
  have h1ne : ¬(pts.length = 0 ∨ cands.isEmpty = true) := by
    rintro (h | h)
    · exact hN h
    · rw [List.isEmpty_iff] at h
      rw [h] at hlen
      simp only [List.length_nil] at hlen
      omega
  have hcs1 : (0 : Rat) < 1 := one_pos
  have inv1 := gpm_passInv cands pts 1 initState hlen hcs1 (initState_wf pts)
  have hwf1 := gpm_state_wf cands pts 1 initState (initState_wf pts)
  have h2lenc : (gpmFinalSt cands pts 1 initState).cands.length =
      4 * pts.length := by rw [gpmFinalSt_cands_length]; exact hlen
  have h2ne : ¬(pts.length = 0 ∨
      (gpmFinalSt cands pts 1 initState).cands.isEmpty = true) := by
    rintro (h | h)
    · exact hN h
    · rw [List.isEmpty_iff] at h
      rw [h] at h2lenc
      simp only [List.length_nil] at h2lenc
      omega
  have hcs2 : (0 : Rat) < mkq 1 2 := by
    rw [mkq_eq]
    norm_num
  have hhalf : mkq 1 2 ≤ (1 : Rat) := by
    rw [mkq_eq]
    norm_num
  intro idx hidx
  -- unfold call 1
  rw [gpm_eq cands pts 1 initState h1ne] at hidx
  simp only at hidx
  -- facts about idx from the call-1 invariant
  have hform1 := inv1.form idx hidx
  have hfc1lt := @gpmFc_lt pts 1 initState (initState_wf pts) (idx / 4) hform1.1
  have hidxlen : idx < cands.length := by
    rw [hlen]
    omega
  -- the state published by call 1
  rw [gpm_eq cands pts 1 initState h1ne]
  simp only
  set st1 : MonotoneState :=
    { lastBase := 1,
      active := (gpmFinalSt cands pts 1 initState).nextActive,
      fixedCorner := gpmFc pts 1 initState,
      usedOnce := (gpmFinalSt cands pts 1 initState).usedOnce } with hst1
  have hwf1b : WfState pts st1 := by
    intro _ pid hpid
    exact @gpmFc_lt pts 1 initState (initState_wf pts) pid hpid
  -- the second call reuses the cached corners
  have hfc21 : gpmFc pts (mkq 1 2) st1 = gpmFc pts 1 initState := by
    rw [gpmFc]
    rw [if_pos]
    exact gpmFc_length pts 1 initState
  -- rectangles only shrink between the two calls
  have hanch2 : ∀ k : Nat, k < cands.length →
      ((gpmPrologue (gpmFinalSt cands pts 1 initState).cands pts (mkq 1 2) st1).getD
        k default).anchor = ((gpmPrologue cands pts 1 initState).getD k default).anchor := by
    intro k hk
    have hkl : k < (gpmFinalSt cands pts 1 initState).cands.length := by
      rw [gpmFinalSt_cands_length]
      exact hk
    rw [prologue_anchor _ pts (mkq 1 2) st1 hkl]
    have := congrArg LabelCandidate.anchor (inv1.shape k)
    simpa [setValid] using this
  have hsubrect : ∀ k ∈ (gpmFinalSt cands pts 1 initState).nextActive,
      RectSub
        (getAABB ((gpmPrologue (gpmFinalSt cands pts 1 initState).cands pts
          (mkq 1 2) st1).getD k default))
        (getAABB ((gpmPrologue cands pts 1 initState).getD k default)) := by
    intro k hk
    have hformk := inv1.form k hk
    have hfcklt := @gpmFc_lt pts 1 initState (initState_wf pts) (k / 4) hformk.1
    have hklen : k < cands.length := by
      rw [hlen]
      omega
    have hkl2 : k < (gpmFinalSt cands pts 1 initState).cands.length := by
      rw [gpmFinalSt_cands_length]
      exact hklen
    apply getAABB_nested
    · exact hanch2 k hklen
    · rw [prologue_corner _ pts (mkq 1 2) st1 hkl2 hformk.1]
      rw [prologue_corner cands pts 1 initState hklen hformk.1]
      rw [hfc21]
    · rw [prologue_size _ pts (mkq 1 2) st1 hkl2]
      rw [prologue_size cands pts 1 initState hklen]
      exact hhalf
  -- pairwise facts about the call-1 rectangles
  have hpair1 : ∀ x ∈ (gpmFinalSt cands pts 1 initState).nextActive,
      ∀ y ∈ (gpmFinalSt cands pts 1 initState).nextActive, x ≠ y →
      overlapsStrict (getAABB ((gpmPrologue cands pts 1 initState).getD x default))
        (getAABB ((gpmPrologue cands pts 1 initState).getD y default)) = false := by
    have hpw := inv1.no_overlap
    rw [inv1.rg_eq, List.pairwise_map] at hpw
    have hsym : Symmetric fun i j =>
        overlapsStrict (getAABB ((gpmPrologue cands pts 1 initState).getD i default))
          (getAABB ((gpmPrologue cands pts 1 initState).getD j default)) = false := by
      intro i j hij
      rw [overlapsStrict_comm]
      exact hij
    intro x hx y hy hxy
    exact hpw.forall hsym hx hy hxy
  -- hypotheses of the keep-pass completeness lemma for call 2
  have H2 : BaseHyps (mkq 1 2) pts (gpmFc pts (mkq 1 2) st1)
      (gpmPrologue (gpmFinalSt cands pts 1 initState).cands pts (mkq 1 2) st1) :=
    { hcs := hcs2
      hlen := by
        rw [prologue_length, gpmFinalSt_cands_length]
        exact hlen
      hsz := by
        intro k hk
        rw [prologue_length] at hk
        exact prologue_size _ pts (mkq 1 2) st1 hk
      hfc := @gpmFc_lt pts (mkq 1 2) st1 hwf1b }
  have hgform2 : ∀ x ∈ (gpmFinalSt cands pts 1 initState).nextActive,
      x / 4 < pts.length ∧
        x = 4 * (x / 4) + (gpmFc pts (mkq 1 2) st1).getD (x / 4) 0 := by
    intro x hx
    rw [hfc21]
    exact inv1.form x hx
  have hpair2 : ∀ x ∈ (gpmFinalSt cands pts 1 initState).nextActive,
      ∀ y ∈ (gpmFinalSt cands pts 1 initState).nextActive, x ≠ y →
      overlapsStrict
        (getAABB ((gpmPrologue (gpmFinalSt cands pts 1 initState).cands pts
          (mkq 1 2) st1).getD x default))
        (getAABB ((gpmPrologue (gpmFinalSt cands pts 1 initState).cands pts
          (mkq 1 2) st1).getD y default)) = false := by
    intro x hx y hy hxy
    exact overlapsStrict_anti (hsubrect x hx) (hsubrect y hy) (hpair1 x hx y hy hxy)
  have hocc2 : ∀ x ∈ (gpmFinalSt cands pts 1 initState).nextActive,
      ∀ q : Nat, q < pts.length → q ≠ x / 4 →
      rectContainsPoint
        (getAABB ((gpmPrologue (gpmFinalSt cands pts 1 initState).cands pts
          (mkq 1 2) st1).getD x default))
        (pts.getD q (0, 0)).1 (pts.getD q (0, 0)).2 = false := by
    intro x hx q hq hqx
    exact rectContainsPoint_anti (hsubrect x hx) (inv1.no_occl x hx q hq hqx)
  -- every previously active index is in the new keep list
  have htodo : ∀ x ∈ gpmKeepList pts (mkq 1 2) st1,
      x ∈ (gpmFinalSt cands pts 1 initState).nextActive := by
    intro x hx
    rw [gpmKeepList, mem_dedupAdj, mem_sortByB, List.mem_filterMap] at hx
    obtain ⟨j, hj, hf⟩ := hx
    by_cases hp : ownerOf j 4 < pts.length
    · rw [if_pos hp] at hf
      have hje : x = ownerOf j 4 * 4 + (gpmFc pts (mkq 1 2) st1).getD (ownerOf j 4) 0 :=
        (Option.some_inj.mp hf).symm
      have hjform := inv1.form j hj
      rw [show ownerOf j 4 = j / 4 from by simp [ownerOf], hfc21] at hje
      have : x = j := by omega
      rw [this]
      exact hj
    · rw [if_neg hp] at hf
      exact absurd hf (Option.some_ne_none x).symm
  -- run the completeness lemma
  have hinit := @passInv_init (mkq 1 2) pts (gpmFc pts (mkq 1 2) st1)
    (gpmPrologue (gpmFinalSt cands pts 1 initState).cands pts (mkq 1 2) st1)
    (prologue_valid _ pts (mkq 1 2) st1)
    (if st1.usedOnce.length = pts.length then st1.usedOnce
      else List.replicate pts.length false)
  have hacc := keepFold_all H2 hgform2 hpair2 hocc2
    (gpmKeepList pts (mkq 1 2) st1) _ hinit htodo
    (fun x hx => absurd hx (List.not_mem_nil x))
  have hidxkeep : idx ∈ gpmKeepList pts (mkq 1 2) st1 := by
    apply mem_keepList_of_active hidx hform1.1
    rw [hfc21]
    exact hform1.2
  have hinkeep : idx ∈ (gpmAfterKeep (gpmFinalSt cands pts 1 initState).cands pts
      (mkq 1 2) st1).nextActive := by
    rw [gpmAfterKeep]
    exact hacc idx hidxkeep
  rw [gpm_eq _ pts (mkq 1 2) st1 h2ne]
  simp only
  exact afterKeep_sub_final _ pts (mkq 1 2) st1 hinkeep


/-- Scores are nonnegative: the squared gap is a sum of squares and
`scoreOf` maps the infinite case to `0`. -/
theorem rgMinGapSq_fold_nonneg (cs : Rat) (r : Rect) :
    ∀ (rects : List Rect) (acc : Option Rat),
      (∀ b : Rat, acc = some b → 0 ≤ b) →
      ∀ v : Rat,
        (rects.foldl
          (fun best x =>
            if cellRangesHit cs r x then
              match best with
              | none => some (rectGapSq r x)
              | some b => some (qmin b (rectGapSq r x))
            else best) acc) = some v → 0 ≤ v
  | [], acc, hacc, v, hv => hacc v hv
  | x :: rest, acc, hacc, v, hv => by
    rw [List.foldl_cons] at hv
    refine rgMinGapSq_fold_nonneg cs r rest _ ?_ v hv
    intro b hb
    by_cases hc : cellRangesHit cs r x = true
    · rw [if_pos hc] at hb
      match acc, hb with
      | none, hb =>
        rw [Option.some_inj] at hb
        rw [← hb]
        exact rectGapSq_nonneg r x
      | some a, hb =>
        rw [Option.some_inj] at hb
        rw [← hb, qmin_eq]
        exact le_min (hacc a rfl) (rectGapSq_nonneg r x)
    · rw [if_neg hc] at hb
      exact hacc b hb

theorem scoreOf_nonneg (cs : Rat) (rects : List Rect) (r : Rect) :
    0 ≤ scoreOf (rgMinGapSq cs rects r) := by
  match hg : rgMinGapSq cs rects r with
  | none => rw [scoreOf]
  | some v =>
    rw [scoreOf]
    rw [rgMinGapSq] at hg
    exact rgMinGapSq_fold_nonneg cs r rects none (by intro b hb; cases hb) v hg

/-- A candidate of `greedyPlaceInternal` is feasible at a point in a given
rectangle-index state when its rectangle neither contains a foreign point nor
overlaps an accepted rectangle. -/
def candFeasible (cs : Rat) (pts : List (Rat × Rat)) (cands : List LabelCandidate)
    (rgRects : List Rect) (pid perPoint j : Nat) : Prop :=
  anyInside cs pts (getAABB (cands.getD (pid * perPoint + j) default)) pid = false ∧
  rgOverlapsAny cs rgRects (getAABB (cands.getD (pid * perPoint + j) default)) = false

/-- The score `greedyPlaceInternal` assigns to a candidate. -/
def candScore (cs : Rat) (cands : List LabelCandidate)
    (rgRects : List Rect) (pid perPoint j : Nat) : Rat :=
  scoreOf (rgMinGapSq cs rgRects (getAABB (cands.getD (pid * perPoint + j) default)))

/-- The minimiser property carried by the running best of the inner loop. -/
def BestInv (cs : Rat) (pts : List (Rat × Rat)) (cands : List LabelCandidate)
    (rgRects : List Rect) (pid perPoint j : Nat)
    (best : Option (Rat × Nat × Rect)) : Prop :=
  (best = none → ∀ i : Nat, i < j → pid * perPoint + i < cands.length →
    ¬candFeasible cs pts cands rgRects pid perPoint i) ∧
  (∀ s k r, best = some (s, k, r) → ∃ jw : Nat, jw < j ∧
    pid * perPoint + jw < cands.length ∧
    candFeasible cs pts cands rgRects pid perPoint jw ∧
    k = pid * perPoint + jw ∧
    s = candScore cs cands rgRects pid perPoint jw ∧
    r = getAABB (cands.getD k default) ∧
    ∀ i : Nat, i < j → pid * perPoint + i < cands.length →
      candFeasible cs pts cands rgRects pid perPoint i →
      s ≤ candScore cs cands rgRects pid perPoint i)

theorem findBest_spec (cs : Rat) (pts : List (Rat × Rat))
    (cands : List LabelCandidate) (rgRects : List Rect) (pid perPoint : Nat) :
    ∀ (fuel j : Nat) (best : Option (Rat × Nat × Rect)),
      perPoint ≤ j + fuel → j ≤ perPoint →
      BestInv cs pts cands rgRects pid perPoint j best →
      BestInv cs pts cands rgRects pid perPoint perPoint
        (findBest cs pts cands rgRects pid perPoint fuel j best)
  | 0, j, best, hfuel, hj, hinv => by
    have hjp : j = perPoint := by omega
    subst hjp
    rw [findBest]
    exact hinv
  | fuel + 1, j, best, hfuel, hj, hinv => by
    rw [findBest]
    by_cases hcond : j < perPoint ∧ pid * perPoint + j < cands.length
    · rw [if_pos hcond]
      by_cases hguard :
          (anyInside cs pts (getAABB (cands.getD (pid * perPoint + j) default)) pid ||
            rgOverlapsAny cs rgRects (getAABB (cands.getD (pid * perPoint + j) default))) = true
      · rw [if_pos hguard]
        -- candidate j is infeasible: extend the scanned prefix
        have hjinfeas : ¬candFeasible cs pts cands rgRects pid perPoint j := by
          rintro ⟨h1, h2⟩
          rw [h1, h2] at hguard
          simp at hguard
        refine findBest_spec cs pts cands rgRects pid perPoint fuel (j + 1) best
          (by omega) (by omega) ⟨?_, ?_⟩
        · intro hb i hi hir
          by_cases hij : i = j
          · rw [hij]
            exact hjinfeas
          · exact hinv.1 hb i (by omega) hir
        · intro s k r hb
          obtain ⟨jw, hjw, h2, h3, h4, h5, h6, h7⟩ := hinv.2 s k r hb
          refine ⟨jw, by omega, h2, h3, h4, h5, h6, ?_⟩
          intro i hi hir hf
          by_cases hij : i = j
          · rw [hij] at hf
            exact absurd hf hjinfeas
          · exact h7 i (by omega) hir hf
      · rw [if_neg hguard]
        rw [Bool.or_eq_true, not_or] at hguard
        have hjfeas : candFeasible cs pts cands rgRects pid perPoint j :=
          ⟨Bool.not_eq_true _ ▸ hguard.1, Bool.not_eq_true _ ▸ hguard.2⟩
        have hinv2 : BestInv cs pts cands rgRects pid perPoint (j + 1)
            (bestUpdate
              (scoreOf (rgMinGapSq cs rgRects (getAABB (cands.getD (pid * perPoint + j) default))))
              (pid * perPoint + j)
              (getAABB (cands.getD (pid * perPoint + j) default)) best) := by
          constructor
          · intro hb
            exfalso
            match best, hb with
            | none, hb => exact Option.some_ne_none _ hb
            | some b, hb =>
              rw [bestUpdate] at hb
              by_cases hlt : scoreOf (rgMinGapSq cs rgRects
                  (getAABB (cands.getD (pid * perPoint + j) default))) < b.1
              · rw [if_pos hlt] at hb
                exact Option.some_ne_none _ hb
              · rw [if_neg hlt] at hb
                exact Option.some_ne_none _ hb
          · intro s k r hb
            match hbm : best, hb with
            | none, hb =>
              rw [bestUpdate, Option.some_inj, Prod.mk.injEq, Prod.mk.injEq] at hb
              obtain ⟨rfl, rfl, rfl⟩ := hb
              refine ⟨j, by omega, hcond.2, hjfeas, rfl, rfl, rfl, ?_⟩
              intro i hi hir hf
              by_cases hij : i = j
              · rw [hij]
                simp [candScore]
              · exact absurd hf (hinv.1 rfl i (by omega) hir)
            | some b, hb =>
              have hq := hinv.2 b.1 b.2.1 b.2.2 rfl
              obtain ⟨jw, hjw, g2, g3, g4, g5, g6, g7⟩ := hq
              rw [bestUpdate] at hb
              by_cases hlt : scoreOf (rgMinGapSq cs rgRects
                  (getAABB (cands.getD (pid * perPoint + j) default))) < b.1
              · rw [if_pos hlt, Option.some_inj, Prod.mk.injEq, Prod.mk.injEq] at hb
                obtain ⟨rfl, rfl, rfl⟩ := hb
                refine ⟨j, by omega, hcond.2, hjfeas, rfl, rfl, rfl, ?_⟩
                intro i hi hir hf
                by_cases hij : i = j
                · rw [hij]
                  simp [candScore]
                · exact le_trans hlt.le (g7 i (by omega) hir hf)
              · rw [if_neg hlt, Option.some_inj] at hb
                subst hb
                refine ⟨jw, by omega, g2, g3, g4, g5, g6, ?_⟩
                intro i hi hir hf
                by_cases hij : i = j
                · rw [hij]
                  simp only [candScore]
                  exact not_lt.mp hlt
                · exact g7 i (by omega) hir hf
        by_cases hzero : bestIsZero
            (bestUpdate
              (scoreOf (rgMinGapSq cs rgRects (getAABB (cands.getD (pid * perPoint + j) default))))
              (pid * perPoint + j)
              (getAABB (cands.getD (pid * perPoint + j) default)) best) = true
        · rw [if_pos hzero]
          constructor
          · intro hb
            rw [hb, bestIsZero] at hzero
            exact absurd hzero (by simp)
          · intro s k r hb
            obtain ⟨jw, hjw, h2, h3, h4, h5, h6, h7⟩ := hinv2.2 s k r hb
            have hs0 : s = 0 := by
              rw [hb, bestIsZero] at hzero
              simpa using hzero
            refine ⟨jw, by omega, h2, h3, h4, h5, h6, ?_⟩
            intro i hi hir hf
            rw [hs0, candScore]
            exact scoreOf_nonneg cs rgRects _
        · rw [if_neg hzero]
          exact findBest_spec cs pts cands rgRects pid perPoint fuel (j + 1) _
            (by omega) (by omega) hinv2
    · rw [if_neg hcond]
      constructor
      · intro hb i hi hir
        by_cases hij : i < j
        · exact hinv.1 hb i hij hir
        · exfalso
          exact hcond ⟨by omega, by omega⟩
      · intro s k r hb
        obtain ⟨jw, hjw, h2, h3, h4, h5, h6, h7⟩ := hinv.2 s k r hb
        refine ⟨jw, by omega, h2, h3, h4, h5, h6, ?_⟩
        intro i hi hir hf
        by_cases hij : i < j
        · exact h7 i hij hir hf
        · exfalso
          exact hcond ⟨by omega, by omega⟩

/-- C4 (amended): in the unconstrained engine, for any point with at least
one feasible candidate, the per-point step `processPoint` accepts a feasible
candidate whose score — the squared `minGapToAny` with an unreachable (non
finite) gap coerced to `0` — is MINIMAL (not maximal) among all feasible
in-range candidates of that point; it marks it valid and appends its
rectangle to the grid and the placed list. -/
theorem processPoint_minimizes (cs : Rat) (pts : List (Rat × Rat))
    (perPoint : Nat) (cands : List LabelCandidate) (rgRects placed : List Rect)
    (pid : Nat)
    (hfeas : ∃ j, j < perPoint ∧ pid * perPoint + j < cands.length ∧
      candFeasible cs pts cands rgRects pid perPoint j) :
    ∃ jw, jw < perPoint ∧ pid * perPoint + jw < cands.length ∧
      candFeasible cs pts cands rgRects pid perPoint jw ∧
      (∀ i, i < perPoint → pid * perPoint + i < cands.length →
        candFeasible cs pts cands rgRects pid perPoint i →
        candScore cs cands rgRects pid perPoint jw ≤
          candScore cs cands rgRects pid perPoint i) ∧
      processPoint cs pts perPoint (cands, rgRects, placed) pid =
        (cands.set (pid * perPoint + jw)
          (setValid (cands.getD (pid * perPoint + jw) default) true),
          rgRects ++ [getAABB (cands.getD (pid * perPoint + jw) default)],
          placed ++ [getAABB (cands.getD (pid * perPoint + jw) default)]) := by
  have hinv0 : BestInv cs pts cands rgRects pid perPoint 0 none := by
    constructor
    · intro _ i hi _
      omega
    · intro s k r h
      exact Option.noConfusion h
  have hspec := findBest_spec cs pts cands rgRects pid perPoint perPoint 0 none
    (by omega) (by omega) hinv0
  match hfb : findBest cs pts cands rgRects pid perPoint perPoint 0 none with
  | none =>
    exfalso
    obtain ⟨j, hj1, hj2, hj3⟩ := hfeas
    exact hspec.1 hfb j hj1 hj2 hj3
  | some (s, k, r) =>
    obtain ⟨jw, h1, h2, h3, hk, hs, hr, hmin⟩ := hspec.2 s k r hfb
    refine ⟨jw, h1, h2, h3, ?_, ?_⟩
    · intro i hi hir hf
      rw [← hs]
      exact hmin i hi hir hf
    · show (match findBest cs pts cands rgRects pid perPoint perPoint 0 none with
        | some b =>
          (cands.set b.2.1 (setValid (cands.getD b.2.1 default) true),
            rgRects ++ [b.2.2], placed ++ [b.2.2])
        | none => (cands, rgRects, placed)) = _
      rw [hfb]
      rw [hk] at hr ⊢
      rw [hr]


/-- The clearance merge keeps nonnegative options nonnegative. -/
theorem omin_nonneg {b : Option Rat} {x : Rat}
    (hb : ∀ v, b = some v → 0 ≤ v) (hx : 0 ≤ x) :
    ∀ v, omin b x = some v → 0 ≤ v := by
  intro v hv
  match b, hv with
  | none, hv =>
    rw [omin, Option.some_inj] at hv
    rw [← hv]
    exact hx
  | some a, hv =>
    rw [omin, Option.some_inj] at hv
    rw [← hv, qmin_eq]
    exact le_min (hb a rfl) hx

/-- The cell scan of the clearance search only ever records values
`min |dx| |dy|`, which are nonnegative. -/
theorem scanCell_nonneg (cs : Rat) (pts : List (Rat × Rat)) (i : Nat)
    (xi yi : Rat) (sx sy : Int) (eps : Rat) (cell : Int × Int) :
    ∀ (l : List (Nat × (Rat × Rat))) (acc : Option Rat),
      (∀ v, acc = some v → 0 ≤ v) →
      ∀ v,
        (l.foldl
          (fun b jp =>
            if jp.1 ≠ i ∧ ptCell cs jp.2 = cell then
              let dx := qsub jp.2.1 xi
              let dy := qsub jp.2.2 yi
              if eps < qmul dx (mkq sx 1) ∧ eps < qmul dy (mkq sy 1) then
                omin b (qmin (qabs dx) (qabs dy))
              else b
            else b)
          acc) = some v → 0 ≤ v
  | [], acc, hacc, v, hv => hacc v hv
  | jp :: rest, acc, hacc, v, hv => by
    rw [List.foldl_cons] at hv
    refine scanCell_nonneg cs pts i xi yi sx sy eps cell rest _ ?_ v hv
    intro w hw
    by_cases hc : jp.1 ≠ i ∧ ptCell cs jp.2 = cell
    · rw [if_pos hc] at hw
      by_cases hd : eps < qmul (qsub jp.2.1 xi) (mkq sx 1) ∧
          eps < qmul (qsub jp.2.2 yi) (mkq sy 1)
      · rw [if_pos hd] at hw
        refine omin_nonneg hacc ?_ w hw
        rw [qmin_eq, qabs_eq, qabs_eq]
        exact le_min (abs_nonneg _) (abs_nonneg _)
      · rw [if_neg hd] at hw
        exact hacc w hw
    · rw [if_neg hc] at hw
      exact hacc w hw

/-- A ring scan preserves nonnegativity of the running clearance. -/
theorem ringScan_nonneg (cs : Rat) (pts : List (Rat × Rat))
    (b : Int × Int × Int × Int) (i : Nat) (xi yi : Rat) (sx sy : Int)
    (eps : Rat) :
    ∀ (cells : List (Int × Int)) (acc : Bool × Option Rat),
      (∀ v, acc.2 = some v → 0 ≤ v) →
      ∀ v, (ringScan cs pts b i xi yi sx sy eps cells acc).2 = some v → 0 ≤ v
  | [], acc, hacc, v, hv => hacc v hv
  | cell :: rest, acc, hacc, v, hv => by
    rw [ringScan, List.foldl_cons] at hv
    refine ringScan_nonneg cs pts b i xi yi sx sy eps rest _ ?_ v hv
    intro w hw
    by_cases hc : withinBounds b cell.1 cell.2 = true
    · rw [if_pos hc] at hw
      exact scanCell_nonneg cs pts i xi yi sx sy eps cell pts.enum acc.2 hacc w hw
    · rw [if_neg hc] at hw
      exact hacc w hw

/-- The ring loop of the clearance search preserves nonnegativity. -/
theorem orthantLoop_nonneg (cs : Rat) (pts : List (Rat × Rat))
    (b : Int × Int × Int × Int) (i : Nat) (xi yi : Rat) (cx cy : Int)
    (sx sy : Int) (eps : Rat) :
    ∀ (fuel r : Nat) (best : Option Rat),
      (∀ v, best = some v → 0 ≤ v) →
      ∀ v, orthantLoop cs pts b i xi yi cx cy sx sy eps r fuel best = some v →
        0 ≤ v
  | 0, r, best, hbest, v, hv => by
    rw [orthantLoop] at hv
    exact hbest v hv
  | fuel + 1, r, best, hbest, v, hv => by
    rw [orthantLoop] at hv
    have hscan := ringScan_nonneg cs pts b i xi yi sx sy eps
      (ringCells cx cy sx sy r) (false, best) hbest
    match hsc : (ringScan cs pts b i xi yi sx sy eps
        (ringCells cx cy sx sy r) (false, best)).2, hscan with
    | some w, hscan =>
      rw [hsc] at hv
      simp only at hv
      have hw : (0:Rat) ≤ w := hscan w rfl
      by_cases h1 : qsub w eps ≤ qmul (mkq (r : Int) 1) cs
      · rw [if_pos h1, Option.some_inj] at hv
        rw [← hv]
        exact hw
      · rw [if_neg h1] at hv
        by_cases h2 : ¬(ringScan cs pts b i xi yi sx sy eps
              (ringCells cx cy sx sy r) (false, best)).1 = true ∧
            (if 0 < sx then b.2.1 < cx + (r : Int) else cx - (r : Int) < b.1) ∧
            (if 0 < sy then b.2.2.2 < cy + (r : Int) else cy - (r : Int) < b.2.2.1)
        · rw [if_pos h2, Option.some_inj] at hv
          rw [← hv]
          exact hw
        · rw [if_neg h2] at hv
          exact orthantLoop_nonneg cs pts b i xi yi cx cy sx sy eps fuel (r + 1)
            (some w) (fun u hu => by rw [Option.some_inj] at hu; rw [← hu]; exact hw)
            v hv
    | none, hscan =>
      rw [hsc] at hv
      simp only at hv
      by_cases h2 : ¬(ringScan cs pts b i xi yi sx sy eps
            (ringCells cx cy sx sy r) (false, best)).1 = true ∧
          (if 0 < sx then b.2.1 < cx + (r : Int) else cx - (r : Int) < b.1) ∧
          (if 0 < sy then b.2.2.2 < cy + (r : Int) else cy - (r : Int) < b.2.2.1)
      · rw [if_pos h2] at hv
        exact Option.noConfusion hv
      · rw [if_neg h2] at hv
        exact orthantLoop_nonneg cs pts b i xi yi cx cy sx sy eps fuel (r + 1)
          none (fun u hu => Option.noConfusion hu) v hv

/-- Every finite clearance the orthant search reports is nonnegative. -/
theorem orthantClearanceGrid_nonneg (cs : Rat) (pts : List (Rat × Rat))
    (i : Nat) (xi yi : Rat) (sx sy : Int) (eps : Rat) :
    ∀ v, orthantClearanceGrid cs pts i xi yi sx sy eps = some v → 0 ≤ v := by
  intro v hv
  rw [orthantClearanceGrid] at hv
  exact orthantLoop_nonneg cs pts (gridBounds (pts.map (ptCell cs))) i xi yi
    (cellOf xi cs) (cellOf yi cs) sx sy eps _ 1 none
    (fun u hu => Option.noConfusion hu) v hv

/-- Characterisation of the corner-selection loop on its four clearances:
the first infinite clearance wins immediately; otherwise the selected corner
attains the maximum clearance and every earlier corner is strictly below it
(so ties go to the earlier corner in the scan order TL, TR, BR, BL). -/
theorem selLoop4_spec (c0 c1 c2 c3 : Option Rat)
    (h0 : ∀ v, c0 = some v → (0:Rat) ≤ v) (h1 : ∀ v, c1 = some v → (0:Rat) ≤ v)
    (h2 : ∀ v, c2 = some v → (0:Rat) ≤ v) (h3 : ∀ v, c3 = some v → (0:Rat) ≤ v) :
    ∀ k, selLoop [(0, c0), (1, c1), (2, c2), (3, c3)] 0 (mkq (-1) 1) = k →
      k < 4 ∧
        (([c0, c1, c2, c3].getD k (some 0) = none ∧
            ∀ m, m < k → [c0, c1, c2, c3].getD m (some 0) ≠ none) ∨
          ((∀ m, m < 4 → [c0, c1, c2, c3].getD m (some 0) ≠ none) ∧
            ∃ x, [c0, c1, c2, c3].getD k (some 0) = some x ∧
              (∀ m y, m < 4 → [c0, c1, c2, c3].getD m (some 0) = some y → y ≤ x) ∧
              (∀ m y, m < k → [c0, c1, c2, c3].getD m (some 0) = some y → y < x))) := by
  have hneg : mkq (-1) 1 < 0 := by decide
  intro k hk
  rcases c0 with _ | x0
  · rw [show selLoop [(0, none), (1, c1), (2, c2), (3, c3)] 0 (mkq (-1) 1) = 0
      from rfl] at hk
    subst hk
    exact ⟨by omega, Or.inl ⟨rfl, by intro m hm; omega⟩⟩
  · rcases c1 with _ | x1 <;> rcases c2 with _ | x2 <;> rcases c3 with _ | x3 <;>
      simp only [selLoop] at hk <;>
      split_ifs at hk <;>
      subst hk <;>
      first
      | exact absurd (lt_of_lt_of_le hneg (h0 x0 rfl)) (by assumption)
      | exact ⟨by omega, Or.inl ⟨rfl,
          by intro m hm; interval_cases m <;> simp⟩⟩
      | refine ⟨by omega, Or.inr ⟨by intro m hm; interval_cases m <;> simp,
          _, rfl, ?_, ?_⟩⟩ <;>
          (intro m y hm hy
           first
           | omega
           | (interval_cases m <;>
               simp only [List.getD_cons_zero, List.getD_cons_succ,
                 Option.some.injEq] at hy <;>
               subst hy <;> linarith))

theorem orthantLoop_single (x y : Rat) (cx cy : Int) (sx sy : Int)
    (hsx : sx = 1 ∨ sx = -1) (hsy : sy = 1 ∨ sy = -1) (fuel : Nat) :
    orthantLoop (mkq 1 20) [(x, y)] (cx, cx, cy, cy) 0 x y cx cy sx sy
      (mkq 1 1000000) 1 (fuel + 1) none = none := by
  have hwb : withinBounds (cx, cx, cy, cy) (cx + sx * 1) (cy + sy * 1) = false := by
    rcases hsx with h | h <;> subst h <;> simp [withinBounds]
  have hne : ¬(withinBounds (cx, cx, cy, cy)
      ((cx + sx * 1, cy + sy * 1) : Int × Int).1
      ((cx + sx * 1, cy + sy * 1) : Int × Int).2 = true) := by
    simpa using hwb
  have hrc : ringCells cx cy sx sy 1 =
      [(cx + sx * 1, cy + sy * 1), (cx + sx * 1, cy + sy * 1)] := rfl
  have hfold : ringScan (mkq 1 20) [(x, y)] (cx, cx, cy, cy) 0 x y sx sy
      (mkq 1 1000000) [(cx + sx * 1, cy + sy * 1), (cx + sx * 1, cy + sy * 1)]
      (false, none) = (false, none) := by
    rw [ringScan]
    simp only [List.foldl_cons, List.foldl_nil]
    rw [if_neg hne]
    rw [if_neg hne]
  rw [orthantLoop, hrc, hfold]
  simp only
  rw [if_pos]
  refine ⟨by simp, ?_, ?_⟩
  · rcases hsx with h | h <;> subst h
    · rw [if_pos (show (0:Int) < 1 by omega)]
      omega
    · rw [if_neg (show ¬(0:Int) < -1 by omega)]
      omega
  · rcases hsy with h | h <;> subst h
    · rw [if_pos (show (0:Int) < 1 by omega)]
      omega
    · rw [if_neg (show ¬(0:Int) < -1 by omega)]
      omega

theorem orthant_single (x y : Rat) (sx sy : Int)
    (hsx : sx = 1 ∨ sx = -1) (hsy : sy = 1 ∨ sy = -1) :
    orthantClearanceGrid (mkq 1 20) [(x, y)] 0 x y sx sy (mkq 1 1000000) = none := by
  rw [orthantClearanceGrid]
  simp only [List.map_cons, List.map_nil, gridBounds, List.foldl_nil]
  rw [show ((2:Int) + max ((ptCell (mkq 1 20) (x, y)).1 - (ptCell (mkq 1 20) (x, y)).1)
      ((ptCell (mkq 1 20) (x, y)).2 - (ptCell (mkq 1 20) (x, y)).2)).toNat = 2 from by simp]
  exact orthantLoop_single x y _ _ sx sy hsx hsy 1

theorem chooseFixedCorners_single (x y : Rat) (base : Rat) :
    chooseFixedCornersByConflicts [(x, y)] base = [0] := by
  show [selLoop
    [(0, orthantClearanceGrid (mkq 1 20) [(x, y)] 0 x y (-1) (-1) (mkq 1 1000000)),
      (1, orthantClearanceGrid (mkq 1 20) [(x, y)] 0 x y 1 (-1) (mkq 1 1000000)),
      (2, orthantClearanceGrid (mkq 1 20) [(x, y)] 0 x y 1 1 (mkq 1 1000000)),
      (3, orthantClearanceGrid (mkq 1 20) [(x, y)] 0 x y (-1) 1 (mkq 1 1000000))]
    0 (mkq (-1) 1)] = [0]
  rw [orthant_single x y (-1) (-1) (Or.inr rfl) (Or.inr rfl),
    orthant_single x y 1 (-1) (Or.inl rfl) (Or.inr rfl),
    orthant_single x y 1 1 (Or.inl rfl) (Or.inl rfl),
    orthant_single x y (-1) 1 (Or.inr rfl) (Or.inl rfl)]
  rfl

/-- A list of invalid candidates whose head is overwritten by a valid one
keeps exactly one valid entry. -/
theorem filter_valid_of_set_head {l : List LabelCandidate} {v : LabelCandidate}
    (hv : v.valid = true) (hall : ∀ c ∈ l, c.valid = false) (h0 : l ≠ []) :
    ((l.set 0 v).filter fun c => c.valid).length = 1 := by
  rcases l with _ | ⟨a, rest⟩
  · exact absurd rfl h0
  · show ((v :: rest).filter fun c => c.valid).length = 1
    rw [List.filter_cons_of_pos hv]
    rw [show rest.filter (fun c => c.valid) = [] from
      List.filter_eq_nil_iff.mpr fun c hc => by
        rw [hall c (List.mem_cons_of_mem a hc)]
        exact Bool.false_ne_true]
    rfl

/-- In the single-point scenario the monotone engine validates exactly one
candidate. -/
theorem gpm_single_count (x y s : Rat) :
    ((greedyPlaceMonotone (generateLabelCandidates [(x, y)] s) [(x, y)] s
        initState).cands.filter fun c => c.valid).length = 1 := by
  have hne : ¬(([(x, y)] : List (Rat × Rat)).length = 0 ∨
      (generateLabelCandidates [(x, y)] s).isEmpty = true) := by
    rintro (h | h)
    · exact Nat.noConfusion h
    · exact Bool.noConfusion h
  have hfc : gpmFc [(x, y)] s initState = [0] := by
    rw [gpmFc, if_neg (by simp [initState])]
    exact chooseFixedCorners_single x y s
  have hfin : gpmFinalSt (generateLabelCandidates [(x, y)] s) [(x, y)] s initState =
      tryAccept s [(x, y)]
        ⟨gpmPrologue (generateLabelCandidates [(x, y)] s) [(x, y)] s initState,
          [], [], [], [false], [false]⟩ 0
        (0 * 4 + (gpmFc [(x, y)] s initState).getD 0 0) := rfl
  have hcands : (gpmFinalSt (generateLabelCandidates [(x, y)] s) [(x, y)] s
      initState).cands =
      (gpmPrologue (generateLabelCandidates [(x, y)] s) [(x, y)] s initState).set 0
        (setValid ((gpmPrologue (generateLabelCandidates [(x, y)] s) [(x, y)] s
          initState).getD 0 default) true) := by
    rw [hfin, hfc]
    rfl
  have hall : ∀ c ∈ gpmPrologue (generateLabelCandidates [(x, y)] s) [(x, y)] s
      initState, c.valid = false := by
    intro c hc
    obtain ⟨k, hk, hck⟩ := List.mem_iff_getElem.mp hc
    have hval := prologue_valid (generateLabelCandidates [(x, y)] s) [(x, y)] s
      initState k
    rw [List.getD_eq_getElem?_getD, List.getElem?_eq_getElem hk,
      Option.getD_some, hck] at hval
    exact hval
  have hpro_ne : gpmPrologue (generateLabelCandidates [(x, y)] s) [(x, y)] s
      initState ≠ [] := by
    intro h
    have := prologue_length (generateLabelCandidates [(x, y)] s) [(x, y)] s initState
    rw [h] at this
    exact Nat.noConfusion this
  rw [gpm_eq _ _ _ _ hne]
  show ((gpmFinalSt (generateLabelCandidates [(x, y)] s) [(x, y)] s
    initState).cands.filter fun c => c.valid).length = 1
  rw [hcands]
  exact filter_valid_of_set_head rfl hall hpro_ne

/-- The corner chosen by `chooseFixedCornersByConflicts` for point `i` is the
first corner with infinite clearance if one exists, and otherwise the first
corner attaining the maximum clearance, in scan order TL, TR, BR, BL. -/
theorem c9_general (points : List (Rat × Rat)) (base : Rat) (i : Nat)
    (hi : i < points.length) :
    ∀ k, (chooseFixedCornersByConflicts points base).getD i 0 = k →
      let cl : List (Option Rat) :=
        [orthantClearanceGrid (mkq 1 20) points i (points.getD i (0, 0)).1
          (points.getD i (0, 0)).2 (-1) (-1) (mkq 1 1000000),
         orthantClearanceGrid (mkq 1 20) points i (points.getD i (0, 0)).1
          (points.getD i (0, 0)).2 1 (-1) (mkq 1 1000000),
         orthantClearanceGrid (mkq 1 20) points i (points.getD i (0, 0)).1
          (points.getD i (0, 0)).2 1 1 (mkq 1 1000000),
         orthantClearanceGrid (mkq 1 20) points i (points.getD i (0, 0)).1
          (points.getD i (0, 0)).2 (-1) 1 (mkq 1 1000000)]
      k < 4 ∧
        ((cl.getD k (some 0) = none ∧ ∀ m, m < k → cl.getD m (some 0) ≠ none) ∨
          ((∀ m, m < 4 → cl.getD m (some 0) ≠ none) ∧
            ∃ x, cl.getD k (some 0) = some x ∧
              (∀ m y, m < 4 → cl.getD m (some 0) = some y → y ≤ x) ∧
              (∀ m y, m < k → cl.getD m (some 0) = some y → y < x))) := by
  intro k hk
  have hne : ¬points.length = 0 := by omega
  rw [chooseFixedCornersByConflicts, if_neg hne] at hk
  rw [List.getD_eq_getElem?_getD, List.getElem?_map, List.getElem?_range hi] at hk
  simp only [Option.map_some, Option.getD_some] at hk
  exact selLoop4_spec _ _ _ _
    (orthantClearanceGrid_nonneg (mkq 1 20) points i _ _ (-1) (-1) (mkq 1 1000000))
    (orthantClearanceGrid_nonneg (mkq 1 20) points i _ _ 1 (-1) (mkq 1 1000000))
    (orthantClearanceGrid_nonneg (mkq 1 20) points i _ _ 1 1 (mkq 1 1000000))
    (orthantClearanceGrid_nonneg (mkq 1 20) points i _ _ (-1) 1 (mkq 1 1000000))
    k hk



/-- Length of a four-per-point flattened candidate table. -/
theorem flatten_map4_length {β : Type} (g : Nat → Nat → β) :
    ∀ n : Nat, (List.flatten ((List.range n).map fun pid =>
      (List.range 4).map (g pid))).length = 4 * n
  | 0 => rfl
  | n + 1 => by
    rw [List.range_succ (n := n), List.map_append, List.flatten_append, List.length_append,
      flatten_map4_length g n]
    simp
    omega

/-- Indexing a four-per-point flattened candidate table. -/
theorem flatten_map4_getD {β : Type} [Inhabited β] (g : Nat → Nat → β) :
    ∀ (n k : Nat), k < 4 * n →
      (List.flatten ((List.range n).map fun pid =>
        (List.range 4).map (g pid))).getD k default = g (k / 4) (k % 4)
  | 0, k, hk => by omega
  | n + 1, k, hk => by
    rw [List.range_succ (n := n), List.map_append, List.flatten_append]
    by_cases h : k < 4 * n
    · rw [List.getD_append _ _ _ _ (by rw [flatten_map4_length g n]; exact h)]
      exact flatten_map4_getD g n k h
    · rw [List.getD_append_right _ _ _ _ (by rw [flatten_map4_length g n]; omega)]
      rw [flatten_map4_length g n]
      have h4 : k - 4 * n < 4 := by omega
      have hdiv : k / 4 = n := by omega
      have hmod : k % 4 = k - 4 * n := by omega
      rw [hdiv, hmod]
      simp only [List.map_cons, List.map_nil, List.flatten_cons, List.flatten_nil,
        List.append_nil]
      rw [List.getD_eq_getElem _ _ (by simpa using h4)]
      rw [List.getElem_map, List.getElem_range]

/-- Length of the generated candidate vector: four per point. -/
theorem genLC_length (pts : List (Rat × Rat)) (s : Rat) :
    (generateLabelCandidates pts s).length = 4 * pts.length :=
  flatten_map4_length _ pts.length

/-- The candidate at index `k`: anchor of point `k / 4`, corner `k % 4`. -/
theorem genLC_getD (pts : List (Rat × Rat)) (s : Rat) (k : Nat)
    (hk : k < 4 * pts.length) :
    (generateLabelCandidates pts s).getD k default =
      { anchor := pts.getD (k / 4) (0, 0), size := s, corner := k % 4,
        weight := 1, valid := false } :=
  flatten_map4_getD _ pts.length k hk

theorem genLC_idx (pts : List (Rat × Rat)) (s : Rat) (k : Nat)
    (hk : k < 4 * pts.length) :
    (generateLabelCandidates pts s)[k]? =
      some { anchor := pts.getD (k / 4) (0, 0), size := s, corner := k % 4,
             weight := 1, valid := false } := by
  have hl : k < (generateLabelCandidates pts s).length := by
    rw [genLC_length]
    exact hk
  rw [List.getElem?_eq_getElem hl, ← List.getD_eq_getElem _ default hl,
    genLC_getD pts s k hk]

/-- The marked candidate at index `k`. -/
theorem markCandidates_getD (pts : List (Rat × Rat)) (sizes : List Rat)
    (corners : List Int) (k : Nat) (hk : k < 4 * pts.length) :
    (markCandidates pts sizes corners).getD k default =
      if ((k % 4 : Nat) : Int) = corners.getD (k / 4) 0 then
        { anchor := pts.getD (k / 4) (0, 0), size := sizes.getD (k / 4) 0,
          corner := (corners.getD (k / 4) 0).toNat, weight := 1, valid := true }
      else
        { anchor := pts.getD (k / 4) (0, 0), size := 0, corner := k % 4,
          weight := 1, valid := false } := by
  rw [markCandidates, List.getD_eq_getElem?_getD, List.getElem?_map,
    List.getElem?_enum, genLC_idx pts 0 k hk]
  rfl

/-- Reading a mapped optional value. -/
theorem optMapSomeGetD {a b : Type} (f : a → b) (x : a) (d : b) :
    (Option.map f (some x)).getD d = f x := rfl

/-- C8 (amended): after the marking pass of `main` (which marks exactly one
candidate per point valid, the recorded corner always lying in `0..3`),
every output row of `write_results_csv` takes the `found` branch: the side
field is the reported size — for an infeasible point the untouched lower
bound `Smin` — never `INF`, the duplicate size field repeats that same value
(not `0`), and the corner is the recorded corner (initialised `0`). -/
theorem c8_rows (pts : List (Rat × Rat)) (sizes : List Rat)
    (corners : List Int) (i : Nat) (d : OutRecord) (hi : i < pts.length)
    (h0 : 0 ≤ corners.getD i 0) (h4 : corners.getD i 0 < 4) :
    (writeResults pts (markCandidates pts sizes corners)).getD i d =
      { x := (pts.getD i (0, 0)).1, y := (pts.getD i (0, 0)).2,
        side := some (sizes.getD i 0), sizeDup := sizes.getD i 0,
        corner := corners.getD i 0 } := by
  have hv : ∀ j, j < 4 →
      ((markCandidates pts sizes corners).getD (i * 4 + j) default).valid
        = decide ((j : Int) = corners.getD i 0) := by
    intro j hj
    have hk : i * 4 + j < 4 * pts.length := by omega
    rw [markCandidates_getD pts sizes corners _ hk,
      show (i * 4 + j) / 4 = i from by omega,
      show (i * 4 + j) % 4 = j from by omega]
    by_cases hc : ((j : Nat) : Int) = corners.getD i 0
    · rw [if_pos hc]
      exact (decide_eq_true hc).symm
    · rw [if_neg hc]
      exact (decide_eq_false hc).symm
  obtain ⟨j0, hj0eq, hj04⟩ : ∃ j0 : Nat, corners.getD i 0 = (j0 : Int) ∧ j0 < 4 :=
    ⟨(corners.getD i 0).toNat, (Int.toNat_of_nonneg h0).symm, by omega⟩
  have e0 : ((markCandidates pts sizes corners).getD (i * 4 + 0) default).valid
      = decide (((0 : Nat) : Int) = (j0 : Int)) := by rw [hv 0 (by omega), hj0eq]
  have e1 : ((markCandidates pts sizes corners).getD (i * 4 + 1) default).valid
      = decide (((1 : Nat) : Int) = (j0 : Int)) := by rw [hv 1 (by omega), hj0eq]
  have e2 : ((markCandidates pts sizes corners).getD (i * 4 + 2) default).valid
      = decide (((2 : Nat) : Int) = (j0 : Int)) := by rw [hv 2 (by omega), hj0eq]
  have e3 : ((markCandidates pts sizes corners).getD (i * 4 + 3) default).valid
      = decide (((3 : Nat) : Int) = (j0 : Int)) := by rw [hv 3 (by omega), hj0eq]
  have hfind : (List.range 4).find?
      (fun j => ((markCandidates pts sizes corners).getD (i * 4 + j) default).valid)
      = some j0 := by
    interval_cases j0 <;>
      simp only [show List.range 4 = [0, 1, 2, 3] from rfl, List.find?, e0, e1,
        e2, e3] <;> decide
  rw [writeResults, List.getD_eq_getElem?_getD, List.getElem?_map,
    List.getElem?_range hi]
  rw [optMapSomeGetD]
  simp only
  rw [hfind]
  simp only
  have hk0 : i * 4 + j0 < 4 * pts.length := by omega
  rw [markCandidates_getD pts sizes corners _ hk0,
    show (i * 4 + j0) / 4 = i from by omega,
    show (i * 4 + j0) % 4 = j0 from by omega,
    if_pos hj0eq.symm]
  rw [show (((corners.getD i 0).toNat : Nat) : Int) = corners.getD i 0 from
    Int.toNat_of_nonneg h0]

/-! ## Claim scenarios: witnesses and counterexamples -/

set_option maxRecDepth 100000

/-- C9: the corner heuristic picks, per point, the first infinite-clearance
quadrant if one exists and otherwise the first maximum-clearance quadrant in
scan order TL, TR, BR, BL (so ties break to the earlier corner); for a
single-point input at any positive size the fixed corner is TL (`0`) and the
monotone engine validates exactly one of the point's four candidates. -/
theorem c9_corner_clearance :
    (∀ (points : List (Rat × Rat)) (base : Rat) (i : Nat), i < points.length →
      ∀ k, (chooseFixedCornersByConflicts points base).getD i 0 = k →
        let cl : List (Option Rat) :=
          [orthantClearanceGrid (mkq 1 20) points i (points.getD i (0, 0)).1
            (points.getD i (0, 0)).2 (-1) (-1) (mkq 1 1000000),
           orthantClearanceGrid (mkq 1 20) points i (points.getD i (0, 0)).1
            (points.getD i (0, 0)).2 1 (-1) (mkq 1 1000000),
           orthantClearanceGrid (mkq 1 20) points i (points.getD i (0, 0)).1
            (points.getD i (0, 0)).2 1 1 (mkq 1 1000000),
           orthantClearanceGrid (mkq 1 20) points i (points.getD i (0, 0)).1
            (points.getD i (0, 0)).2 (-1) 1 (mkq 1 1000000)]
        k < 4 ∧
          ((cl.getD k (some 0) = none ∧ ∀ m, m < k → cl.getD m (some 0) ≠ none) ∨
            ((∀ m, m < 4 → cl.getD m (some 0) ≠ none) ∧
              ∃ x, cl.getD k (some 0) = some x ∧
                (∀ m y, m < 4 → cl.getD m (some 0) = some y → y ≤ x) ∧
                (∀ m y, m < k → cl.getD m (some 0) = some y → y < x)))) ∧
    (∀ x y base : Rat, 0 < base →
      chooseFixedCornersByConflicts [(x, y)] base = [0]) ∧
    (∀ x y s : Rat, 0 < s →
      ((greedyPlaceMonotone (generateLabelCandidates [(x, y)] s) [(x, y)] s
        initState).cands.filter fun c => c.valid).length = 1) :=
  ⟨c9_general, fun x y base _ => chooseFixedCorners_single x y base,
   fun x y s _ => gpm_single_count x y s⟩

theorem c9_witness :
    chooseFixedCornersByConflicts [((0 : Rat), (0 : Rat))] 1 = [0] ∧
    ((greedyPlaceMonotone (generateLabelCandidates [((0 : Rat), (0 : Rat))] 1)
        [((0 : Rat), (0 : Rat))] 1 initState).cands.filter
      fun c => c.valid).length = 1 :=
  ⟨c9_corner_clearance.2.1 0 0 1 (by decide),
   c9_corner_clearance.2.2 0 0 1 (by decide)⟩

theorem c1_witness :
    ((greedyPlaceMonotone (generateLabelCandidates [(0, 0), (5, 0)] 1)
        [(0, 0), (5, 0)] 1 initState).cands.getD 0 default).valid = true ∧
    ((greedyPlaceMonotone (generateLabelCandidates [(0, 0), (5, 0)] 1)
        [(0, 0), (5, 0)] 1 initState).cands.getD 4 default).valid = true ∧
    overlapsStrict
      (getAABB ((greedyPlaceMonotone (generateLabelCandidates [(0, 0), (5, 0)] 1)
        [(0, 0), (5, 0)] 1 initState).cands.getD 0 default))
      (getAABB ((greedyPlaceMonotone (generateLabelCandidates [(0, 0), (5, 0)] 1)
        [(0, 0), (5, 0)] 1 initState).cands.getD 4 default)) = false :=
  ⟨by decide, by decide,
   c1_general (generateLabelCandidates [(0, 0), (5, 0)] 1) [(0, 0), (5, 0)] 1
     initState (by decide) (by decide) (fun h => absurd h (by decide)) 0 4
     (by decide) (by decide) (by decide)⟩

theorem c2_witness :
    ((greedyPlaceMonotone (generateLabelCandidates [(0, 0), (5, 0)] 1)
        [(0, 0), (5, 0)] 1 initState).cands.getD 0 default).anchor =
      ([(0, 0), (5, 0)] : List (Rat × Rat)).getD (0 / 4) (0, 0) ∧
    rectContainsPoint
      (getAABB ((greedyPlaceMonotone (generateLabelCandidates [(0, 0), (5, 0)] 1)
        [(0, 0), (5, 0)] 1 initState).cands.getD 0 default))
      (([(0, 0), (5, 0)] : List (Rat × Rat)).getD 1 (0, 0)).1
      (([(0, 0), (5, 0)] : List (Rat × Rat)).getD 1 (0, 0)).2 = false :=
  ⟨(c2_general (generateLabelCandidates [(0, 0), (5, 0)] 1) [(0, 0), (5, 0)] 1
      initState (by decide) (by decide) (fun h => absurd h (by decide))
      (fun k hk => by
        rw [genLC_getD [(0, 0), (5, 0)] 1 k
          (by rw [← genLC_length [(0, 0), (5, 0)] (1 : Rat)]; exact hk)]) 0
      (by decide)).1,
   (c2_general (generateLabelCandidates [(0, 0), (5, 0)] 1) [(0, 0), (5, 0)] 1
      initState (by decide) (by decide) (fun h => absurd h (by decide))
      (fun k hk => by
        rw [genLC_getD [(0, 0), (5, 0)] 1 k
          (by rw [← genLC_length [(0, 0), (5, 0)] (1 : Rat)]; exact hk)]) 0
      (by decide)).2 1 (by decide) (by decide)⟩

theorem c3_witness :
    ((List.range 4).filter fun j =>
      ((greedyPlaceMonotone (generateLabelCandidates [(0, 0), (5, 0)] 1)
        [(0, 0), (5, 0)] 1 initState).cands.getD (4 * 0 + j) default).valid).length ≤ 1 :=
  c3_general (generateLabelCandidates [(0, 0), (5, 0)] 1) [(0, 0), (5, 0)] 1
    initState (by decide) (by decide) (fun h => absurd h (by decide)) 0

theorem c6_witness :
    ∃ idx ∈ (greedyPlaceMonotone (generateLabelCandidates [(0, 0), (5, 0)] 1)
      [(0, 0), (5, 0)] 1 initState).state.active, idx / 4 = 0 / 4 :=
  c6_general
    (greedyPlaceMonotone (generateLabelCandidates [(0, 0), (5, 0)] 1)
      [(0, 0), (5, 0)] 1 initState).cands
    [(0, 0), (5, 0)] 1
    (greedyPlaceMonotone (generateLabelCandidates [(0, 0), (5, 0)] 1)
      [(0, 0), (5, 0)] 1 initState).state
    (by decide) (by decide)
    (fun _ pid hpid => by
      have h2 : pid < 2 := hpid
      interval_cases pid <;> decide)
    (by decide) (by decide) 0 (by decide)

theorem c10_witness :
    (greedyPlaceMonotone (generateLabelCandidates [(0, 0), (5, 0)] 1)
      [(0, 0), (5, 0)] 1 initState).placed =
      (greedyPlaceMonotone (generateLabelCandidates [(0, 0), (5, 0)] 1)
        [(0, 0), (5, 0)] 1 initState).state.active.map
        (fun k => getAABB ((greedyPlaceMonotone
          (generateLabelCandidates [(0, 0), (5, 0)] 1)
          [(0, 0), (5, 0)] 1 initState).cands.getD k default)) ∧
    ((greedyPlaceMonotone (generateLabelCandidates [(0, 0), (5, 0)] 1)
      [(0, 0), (5, 0)] 1 initState).cands.filter fun c => c.valid).length =
      (greedyPlaceMonotone (generateLabelCandidates [(0, 0), (5, 0)] 1)
        [(0, 0), (5, 0)] 1 initState).state.active.length ∧
    (greedyPlaceMonotone (generateLabelCandidates [(0, 0), (5, 0)] 1)
      [(0, 0), (5, 0)] 1 initState).placed.length =
      (greedyPlaceMonotone (generateLabelCandidates [(0, 0), (5, 0)] 1)
        [(0, 0), (5, 0)] 1 initState).state.active.length :=
  c10_general (generateLabelCandidates [(0, 0), (5, 0)] 1) [(0, 0), (5, 0)] 1
    initState (by decide) (by decide) (by decide) (fun h => absurd h (by decide))

set_option maxRecDepth 100000

theorem c4_counterexample :
    ((greedyPlaceInternal (generateLabelCandidates [(0, 0), (mkq 1 2, 0)] 1)
        [(0, 0), (mkq 1 2, 0)]).1.map fun c => c.valid) =
      [true, false, false, false, false, false, false, true] ∧
    candFeasible 1 [(0, 0), (mkq 1 2, 0)]
      (processPoint 1 [(0, 0), (mkq 1 2, 0)] 4
        ((generateLabelCandidates [(0, 0), (mkq 1 2, 0)] 1).map
          (fun c => { c with valid := false }), [], []) 0).1
      (processPoint 1 [(0, 0), (mkq 1 2, 0)] 4
        ((generateLabelCandidates [(0, 0), (mkq 1 2, 0)] 1).map
          (fun c => { c with valid := false }), [], []) 0).2.1 1 4 1 ∧
    candScore 1
      (processPoint 1 [(0, 0), (mkq 1 2, 0)] 4
        ((generateLabelCandidates [(0, 0), (mkq 1 2, 0)] 1).map
          (fun c => { c with valid := false }), [], []) 0).1
      (processPoint 1 [(0, 0), (mkq 1 2, 0)] 4
        ((generateLabelCandidates [(0, 0), (mkq 1 2, 0)] 1).map
          (fun c => { c with valid := false }), [], []) 0).2.1 1 4 3 <
      candScore 1
        (processPoint 1 [(0, 0), (mkq 1 2, 0)] 4
          ((generateLabelCandidates [(0, 0), (mkq 1 2, 0)] 1).map
            (fun c => { c with valid := false }), [], []) 0).1
        (processPoint 1 [(0, 0), (mkq 1 2, 0)] 4
          ((generateLabelCandidates [(0, 0), (mkq 1 2, 0)] 1).map
            (fun c => { c with valid := false }), [], []) 0).2.1 1 4 1 :=
  ⟨by decide, ⟨by decide, by decide⟩, by decide⟩

theorem c4_witness :
    ∃ jw, jw < 4 ∧ 1 * 4 + jw <
        (generateLabelCandidates [(0, 0), (mkq 1 2, 0)] 1).length ∧
      candFeasible 1 [(0, 0), (mkq 1 2, 0)]
        (generateLabelCandidates [(0, 0), (mkq 1 2, 0)] 1)
        [⟨-1, -1, 0, 0⟩] 1 4 jw ∧
      (∀ i, i < 4 → 1 * 4 + i <
          (generateLabelCandidates [(0, 0), (mkq 1 2, 0)] 1).length →
        candFeasible 1 [(0, 0), (mkq 1 2, 0)]
          (generateLabelCandidates [(0, 0), (mkq 1 2, 0)] 1)
          [⟨-1, -1, 0, 0⟩] 1 4 i →
        candScore 1 (generateLabelCandidates [(0, 0), (mkq 1 2, 0)] 1)
          [⟨-1, -1, 0, 0⟩] 1 4 jw ≤
        candScore 1 (generateLabelCandidates [(0, 0), (mkq 1 2, 0)] 1)
          [⟨-1, -1, 0, 0⟩] 1 4 i) ∧
      processPoint 1 [(0, 0), (mkq 1 2, 0)] 4
        (generateLabelCandidates [(0, 0), (mkq 1 2, 0)] 1, [⟨-1, -1, 0, 0⟩], []) 1 =
        ((generateLabelCandidates [(0, 0), (mkq 1 2, 0)] 1).set (1 * 4 + jw)
          (setValid ((generateLabelCandidates [(0, 0), (mkq 1 2, 0)] 1).getD
            (1 * 4 + jw) default) true),
          [⟨-1, -1, 0, 0⟩] ++ [getAABB ((generateLabelCandidates
            [(0, 0), (mkq 1 2, 0)] 1).getD (1 * 4 + jw) default)],
          [] ++ [getAABB ((generateLabelCandidates
            [(0, 0), (mkq 1 2, 0)] 1).getD (1 * 4 + jw) default)]) :=
  processPoint_minimizes 1 [(0, 0), (mkq 1 2, 0)] 4
    (generateLabelCandidates [(0, 0), (mkq 1 2, 0)] 1) [⟨-1, -1, 0, 0⟩] [] 1
    ⟨1, by decide, by decide, by decide, by decide⟩

theorem c5_counterexample :
    (greedyPlaceMonotone (generateLabelCandidates [(0, 0), (mkq 1 2, 0)] 1)
        [(0, 0), (mkq 1 2, 0)] 1 initState).state.active = [0] ∧
    (greedyPlaceMonotone
        (greedyPlaceMonotone (generateLabelCandidates [(0, 0), (mkq 1 2, 0)] 1)
          [(0, 0), (mkq 1 2, 0)] 1 initState).cands
        [(0, 0), (mkq 1 2, 0)] (mkq 1 2)
        (greedyPlaceMonotone (generateLabelCandidates [(0, 0), (mkq 1 2, 0)] 1)
          [(0, 0), (mkq 1 2, 0)] 1 initState).state).state.active = [0, 4] ∧
    (4 : Nat) ∈ (greedyPlaceMonotone
        (greedyPlaceMonotone (generateLabelCandidates [(0, 0), (mkq 1 2, 0)] 1)
          [(0, 0), (mkq 1 2, 0)] 1 initState).cands
        [(0, 0), (mkq 1 2, 0)] (mkq 1 2)
        (greedyPlaceMonotone (generateLabelCandidates [(0, 0), (mkq 1 2, 0)] 1)
          [(0, 0), (mkq 1 2, 0)] 1 initState).state).state.active ∧
    (4 : Nat) ∉ (greedyPlaceMonotone
        (generateLabelCandidates [(0, 0), (mkq 1 2, 0)] 1)
        [(0, 0), (mkq 1 2, 0)] 1 initState).state.active :=
  ⟨by decide, by decide, by decide, by decide⟩

theorem c5_witness :
    (0 : Nat) ∈ (greedyPlaceMonotone
        (greedyPlaceMonotone (generateLabelCandidates [(0, 0), (mkq 1 2, 0)] 1)
          [(0, 0), (mkq 1 2, 0)] 1 initState).cands
        [(0, 0), (mkq 1 2, 0)] (mkq 1 2)
        (greedyPlaceMonotone (generateLabelCandidates [(0, 0), (mkq 1 2, 0)] 1)
          [(0, 0), (mkq 1 2, 0)] 1 initState).state).state.active :=
  c5_superset (generateLabelCandidates [(0, 0), (mkq 1 2, 0)] 1)
    [(0, 0), (mkq 1 2, 0)] (by decide) (by decide) 0 (by decide)

/-- C7: the per-scale oracle is NOT stateless: on the three-point row below,
a fresh call at scale `21/100` labels only the middle point, while the same
call issued after a prior call at scale `1/10` labels the two outer points
instead — the result depends on the engine state left by earlier calls. -/
theorem c7_stateful_oracle :
    (runAtScale initState [(mkq 1 20, 0), (mkq 5 20, 0), (mkq 9 20, 0)]
        (mkq 21 100)).alive = [false, true, false] ∧
    (runAtScale
        (runAtScale initState [(mkq 1 20, 0), (mkq 5 20, 0), (mkq 9 20, 0)]
          (mkq 1 10)).state
        [(mkq 1 20, 0), (mkq 5 20, 0), (mkq 9 20, 0)] (mkq 21 100)).alive =
      [true, false, true] ∧
    (runAtScale initState [(mkq 1 20, 0), (mkq 5 20, 0), (mkq 9 20, 0)]
        (mkq 21 100)).alive ≠
      (runAtScale
        (runAtScale initState [(mkq 1 20, 0), (mkq 5 20, 0), (mkq 9 20, 0)]
          (mkq 1 10)).state
        [(mkq 1 20, 0), (mkq 5 20, 0), (mkq 9 20, 0)] (mkq 21 100)).alive :=
  ⟨by decide, by decide, by decide⟩

theorem c8_counterexample :
    (computeZoomThresholds [(0, 0), (0, 0)]
        [mkq 1 10000, mkq 11 100000, mkq 12 100000, mkq 13 100000,
         mkq 15 100000, mkq 16 100000, mkq 18 100000, mkq 1 5000]
        (mkq 1 10000) (mkq 1 5000) (mkq 61 1000000) (mkq 6 5) 56 64 true
        initState).size = [mkq 1 5000, mkq 1 10000] ∧
    (computeZoomThresholds [(0, 0), (0, 0)]
        [mkq 1 10000, mkq 11 100000, mkq 12 100000, mkq 13 100000,
         mkq 15 100000, mkq 16 100000, mkq 18 100000, mkq 1 5000]
        (mkq 1 10000) (mkq 1 5000) (mkq 61 1000000) (mkq 6 5) 56 64 true
        initState).corner = [0, 0] ∧
    (runAtScale initState [(0, 0), (0, 0)] (mkq 1 10000)).alive =
      [true, false] ∧
    (writeResults [(0, 0), (0, 0)]
        (markCandidates [(0, 0), (0, 0)] [mkq 1 5000, mkq 1 10000]
          [0, 0])).getD 1 ⟨0, 0, none, 0, 0⟩ =
      ⟨0, 0, some (mkq 1 10000), mkq 1 10000, 0⟩ :=
  ⟨by decide, by decide, by decide, by decide⟩

theorem c8_witness :
    (writeResults [((0 : Rat), (0 : Rat)), (0, 0)]
        (markCandidates [((0 : Rat), (0 : Rat)), (0, 0)]
          [mkq 1 5000, mkq 1 10000] [0, 0])).getD 1 ⟨0, 0, none, 0, 0⟩ =
      { x := (([((0 : Rat), (0 : Rat)), (0, 0)] :
          List (Rat × Rat)).getD 1 (0, 0)).1,
        y := (([((0 : Rat), (0 : Rat)), (0, 0)] :
          List (Rat × Rat)).getD 1 (0, 0)).2,
        side := some (([mkq 1 5000, mkq 1 10000] : List Rat).getD 1 0),
        sizeDup := ([mkq 1 5000, mkq 1 10000] : List Rat).getD 1 0,
        corner := ([0, 0] : List Int).getD 1 0 } :=
  c8_rows [(0, 0), (0, 0)] [mkq 1 5000, mkq 1 10000] [0, 0] 1 ⟨0, 0, none, 0, 0⟩
    (by decide) (by decide) (by decide)

end Labeler
